import Mathlib

/-!
A formal model of the curation stage of the Datalakes-And-Data-Integration
pipeline (`src/process_to_curated.py`), together with proofs about its
per-pass data-transformation contracts.

Modelling conventions (a shallow embedding of the pandas code):

* A dataframe cell is `Cell`: `null` stands for pandas `NaN`/`None`,
  `num q` for a finite float (modelled as a rational), `txt s` for a
  non-numeric text value (numeric-looking strings are represented directly
  as `num`), and `pinf`/`ninf` for the IEEE infinities that division by
  zero produces.  Cell arithmetic follows IEEE-754 semantics on these
  constructors; an arithmetic operation touching a `txt` or `null` operand
  yields `null` (NaN propagation).
* A dataframe is a list of named columns (`DF`); a column name is a list of
  characters (`ColName`), so that the suffix-matching the source performs
  with `str.endswith` becomes `List.IsSuffix`.
* `df[c] = s` is `DF.setCol` (replace the column if the name is present,
  else append it on the right, as pandas does), `df[c]` is `DF.getCol`,
  `df.drop(columns=[c])` is `DF.dropCol`.
* Every function of the source that the claims mention is translated
  one-for-one: `convert_units`, `aggregate_valeurs`,
  `replace_null_values_by_mean`, `shift_and_calculate_diff_6_hours_ago`,
  `calculate_particle_variation`, `drop_unwanted_col_and_add_table_prefix`,
  `merge_dataframes`, and the per-table loop of `main`.
-/

/-- Column names are character lists, so suffix tests are `List.IsSuffix`. -/
abbrev ColName := List Char

/-- A dataframe cell: pandas `NaN` is `null`, a finite float is `num`,
non-numeric text is `txt`, and the two IEEE infinities are `pinf`/`ninf`. -/
inductive Cell where
  | null : Cell
  | num (q : ℚ) : Cell
  | txt (s : String) : Cell
  | pinf : Cell
  | ninf : Cell
deriving DecidableEq, Repr

namespace Cell

/-- Pandas `pd.isnull`: only `NaN` counts as missing. -/
def isNull : Cell → Bool
  | .null => true
  | _ => false

/-- True exactly on finite numeric cells. -/
def isFiniteNum : Cell → Bool
  | .num _ => true
  | _ => false

/-- IEEE-like addition on cells; `txt` operands behave as missing. -/
def add : Cell → Cell → Cell
  | .num a, .num b => .num (a + b)
  | .num _, .pinf => .pinf
  | .pinf, .num _ => .pinf
  | .num _, .ninf => .ninf
  | .ninf, .num _ => .ninf
  | .pinf, .pinf => .pinf
  | .ninf, .ninf => .ninf
  | _, _ => .null

/-- IEEE-like subtraction on cells. -/
def sub : Cell → Cell → Cell
  | .num a, .num b => .num (a - b)
  | .num _, .pinf => .ninf
  | .pinf, .num _ => .pinf
  | .num _, .ninf => .pinf
  | .ninf, .num _ => .ninf
  | .pinf, .ninf => .pinf
  | .ninf, .pinf => .ninf
  | _, _ => .null

/-- IEEE-like multiplication on cells (`0 * ∞ = NaN`). -/
def mul : Cell → Cell → Cell
  | .num a, .num b => .num (a * b)
  | .num a, .pinf => if 0 < a then .pinf else if a < 0 then .ninf else .null
  | .pinf, .num a => if 0 < a then .pinf else if a < 0 then .ninf else .null
  | .num a, .ninf => if 0 < a then .ninf else if a < 0 then .pinf else .null
  | .ninf, .num a => if 0 < a then .ninf else if a < 0 then .pinf else .null
  | .pinf, .pinf => .pinf
  | .ninf, .ninf => .pinf
  | .pinf, .ninf => .ninf
  | .ninf, .pinf => .ninf
  | _, _ => .null

/-- IEEE-like division on cells: a nonzero finite number divided by zero is
a signed infinity, `0 / 0` is NaN, finite over infinite is `0`. -/
def div : Cell → Cell → Cell
  | .num a, .num b =>
      if b = 0 then (if 0 < a then .pinf else if a < 0 then .ninf else .null)
      else .num (a / b)
  | .num _, .pinf => .num 0
  | .num _, .ninf => .num 0
  | .pinf, .num b => if b < 0 then .ninf else .pinf
  | .ninf, .num b => if b < 0 then .pinf else .ninf
  | _, _ => .null

end Cell

/-- A dataframe: an ordered association list of named columns. -/
structure DF where
  cols : List (ColName × List Cell)
deriving DecidableEq, Repr

namespace DF

/-- The column names, in order (`df.columns`). -/
def names (df : DF) : List ColName := df.cols.map Prod.fst

/-- Auxiliary recursion for column lookup. -/
def getColAux : List (ColName × List Cell) → ColName → Option (List Cell)
  | [], _ => none
  | c :: rest, n => if c.1 = n then some c.2 else getColAux rest n

/-- Column lookup, `df[n]`. -/
def getCol (df : DF) (n : ColName) : Option (List Cell) := getColAux df.cols n

/-- Auxiliary recursion for column assignment: replace the existing column
of that name, else append a new column on the right (pandas `df[n] = s`). -/
def setColAux : List (ColName × List Cell) → ColName → List Cell → List (ColName × List Cell)
  | [], n, cs => [(n, cs)]
  | c :: rest, n, cs => if c.1 = n then (n, cs) :: rest else c :: setColAux rest n cs

/-- Column assignment, `df[n] = cs`. -/
def setCol (df : DF) (n : ColName) (cs : List Cell) : DF := ⟨setColAux df.cols n cs⟩

/-- Column removal, `df.drop(columns=[n])`. -/
def dropCol (df : DF) (n : ColName) : DF := ⟨df.cols.filter (fun c => !(c.1 = n : Bool))⟩

/-- The number of rows, read off the first column. -/
def nRows (df : DF) : Nat := ((df.cols.head?).map (fun c => c.2.length)).getD 0

/-- Pandas `df.empty`: no cells at all. -/
def isEmptyDF (df : DF) : Bool := df.cols.all (fun c => c.2.isEmpty)

/-- The cell of column `n` at row `i` (`df.at[i, n]`), `null` off the end. -/
def cellAt (df : DF) (n : ColName) (i : Nat) : Cell := ((df.getCol n).getD []).getD i .null

end DF

@[simp] theorem DF.getCol_setCol_self (df : DF) (n : ColName) (cs : List Cell) :
    (df.setCol n cs).getCol n = some cs := by
  show DF.getColAux (DF.setColAux df.cols n cs) n = some cs
  induction df.cols with
  | nil => simp [DF.setColAux, DF.getColAux]
  | cons c rest ih =>
    by_cases h : c.1 = n <;> simp [DF.setColAux, DF.getColAux, h, ih]

theorem DF.getCol_setCol_ne (df : DF) (n m : ColName) (cs : List Cell) (h : m ≠ n) :
    (df.setCol n cs).getCol m = df.getCol m := by
  have hnm : ¬ n = m := fun he => h he.symm
  show DF.getColAux (DF.setColAux df.cols n cs) m = DF.getColAux df.cols m
  induction df.cols with
  | nil => simp [DF.setColAux, DF.getColAux, hnm]
  | cons c rest ih =>
    by_cases hc : c.1 = n
    · subst hc
      simp [DF.setColAux, DF.getColAux, hnm]
    · simp only [DF.setColAux, hc, if_false, DF.getColAux]
      by_cases hm : c.1 = m <;> simp [hm, ih]

theorem DF.getCol_dropCol_ne (df : DF) (n m : ColName) (h : m ≠ n) :
    (df.dropCol n).getCol m = df.getCol m := by
  have hnm : ¬ n = m := fun he => h he.symm
  show DF.getColAux (df.cols.filter _) m = DF.getColAux df.cols m
  induction df.cols with
  | nil => simp [DF.getColAux]
  | cons c rest ih =>
    by_cases hc : c.1 = n
    · have hcm : ¬ c.1 = m := by
        intro he
        exact h (by rw [← he, hc])
      simp [List.filter, hc, DF.getColAux, hcm, hnm, ih]
    · by_cases hm : c.1 = m <;> simp [List.filter, hc, DF.getColAux, hm, h, ih]

@[simp] theorem DF.getCol_dropCol_self (df : DF) (n : ColName) :
    (df.dropCol n).getCol n = none := by
  show DF.getColAux (df.cols.filter _) n = none
  induction df.cols with
  | nil => simp [DF.getColAux]
  | cons c rest ih =>
    by_cases hc : c.1 = n <;> simp [List.filter, hc, DF.getColAux, ih]

theorem DF.names_setCol (df : DF) (n : ColName) (cs : List Cell) :
    (df.setCol n cs).names = if n ∈ df.names then df.names else df.names ++ [n] := by
  show (DF.setColAux df.cols n cs).map Prod.fst =
    if n ∈ df.cols.map Prod.fst then df.cols.map Prod.fst else df.cols.map Prod.fst ++ [n]
  induction df.cols with
  | nil => simp [DF.setColAux]
  | cons c rest ih =>
    by_cases hc : c.1 = n
    · simp [DF.setColAux, hc]
    · have : ¬ n = c.1 := fun he => hc he.symm
      by_cases hmem : n ∈ rest.map Prod.fst <;>
        simp [DF.setColAux, hc, this, hmem, ih]

theorem DF.getCol_isSome_iff_mem_names (df : DF) (n : ColName) :
    (df.getCol n).isSome ↔ n ∈ df.names := by
  show (DF.getColAux df.cols n).isSome ↔ n ∈ df.cols.map Prod.fst
  induction df.cols with
  | nil => simp [DF.getColAux]
  | cons c rest ih =>
    by_cases hc : c.1 = n
    · simp [DF.getColAux, hc]
    · have : ¬ n = c.1 := fun he => hc he.symm
      simp [DF.getColAux, hc, this, ih]

theorem DF.getCol_eq_none_of_not_mem (df : DF) (n : ColName) (h : n ∉ df.names) :
    df.getCol n = none := by
  have := (DF.getCol_isSome_iff_mem_names df n).not.mpr h
  cases he : df.getCol n with
  | none => rfl
  | some cs => rw [he] at this; simp at this

theorem DF.mem_names_of_getCol_eq_some (df : DF) (n : ColName) (cs : List Cell)
    (h : df.getCol n = some cs) : n ∈ df.names := by
  have := (DF.getCol_isSome_iff_mem_names df n).mp
  rw [h] at this
  exact this rfl

/-- Lookup after applying a name-preserving per-column transform. -/
theorem DF.getColAux_map (l : List (ColName × List Cell)) (g : List Cell → List Cell)
    (n : ColName) :
    DF.getColAux (l.map (fun c => (c.1, g c.2))) n = (DF.getColAux l n).map g := by
  induction l with
  | nil => simp [DF.getColAux]
  | cons c rest ih =>
    by_cases hc : c.1 = n <;> simp [DF.getColAux, hc, ih]

/-- The non-null cells of a column. -/
def notNullCells (cs : List Cell) : List Cell := cs.filter (fun c => !c.isNull)

/-- Pandas `select_dtypes(include='number')` membership: a column is numeric
when it holds no text cell. -/
def colIsNumeric (cs : List Cell) : Bool :=
  cs.all (fun c => match c with | .txt _ => false | _ => true)

/-- Pandas `Series.sum` over the non-null cells. -/
def colSum (cs : List Cell) : Cell := (notNullCells cs).foldl Cell.add (.num 0)

/-- Pandas `Series.mean()`: the sum of the non-null cells divided by their
count; `NaN` when every cell is null. -/
def colMean (cs : List Cell) : Cell :=
  if (notNullCells cs).length = 0 then .null
  else Cell.div (colSum cs) (.num ((notNullCells cs).length : ℚ))

/-- Pandas `Series.fillna(v)` with a scalar `v`. -/
def fillConst (cs : List Cell) (v : Cell) : List Cell :=
  cs.map (fun c => if c.isNull then v else c)

/-- `replace_null_values_by_mean` from `process_to_curated.py`: for every
numeric column, fill its nulls with the column mean. -/
def replace_null_values_by_mean (df : DF) : DF :=
  ⟨df.cols.map (fun c => (c.1, if colIsNumeric c.2 then fillConst c.2 (colMean c.2) else c.2))⟩

theorem fillConst_null (cs : List Cell) : fillConst cs .null = cs := by
  induction cs with
  | nil => rfl
  | cons c rest ih =>
    cases c <;> simp [fillConst, Cell.isNull] at ih ⊢ <;> exact ih

theorem colIsNumeric_of_all_null (cs : List Cell) (h : cs.all Cell.isNull = true) :
    colIsNumeric cs = true := by
  simp only [List.all_eq_true] at h
  simp only [colIsNumeric, List.all_eq_true]
  intro c hc
  have := h c hc
  cases c <;> simp_all [Cell.isNull]

theorem colMean_all_null (cs : List Cell) (h : cs.all Cell.isNull = true) :
    colMean cs = .null := by
  have : notNullCells cs = [] := by
    simp only [List.all_eq_true] at h
    simp only [notNullCells, List.filter_eq_nil_iff]
    intro c hc
    simp [h c hc]
  simp [colMean, this]

theorem fillConst_getD (cs : List Cell) (v : Cell) (i : Nat) (hi : i < cs.length) :
    (fillConst cs v).getD i .null =
      if (cs.getD i .null).isNull then v else cs.getD i .null := by
  induction cs generalizing i with
  | nil => simp at hi
  | cons c rest ih =>
    cases i with
    | zero => simp [fillConst]
    | succ j =>
      simp only [fillConst, List.map_cons, List.getD_cons_succ]
      exact ih j (by simpa using Nat.lt_of_succ_lt_succ hi)

/-- C2: the null-fill pass `replace_null_values_by_mean` replaces, in each
numeric column, exactly the null cells with that column's arithmetic mean
over the non-null cells, leaves every non-null cell unchanged, leaves
non-numeric columns untouched, and on an all-null column performs no change
at all (the undefined mean makes the fill a no-op; being a total function,
the pass cannot fail on such a column). -/
theorem replace_null_values_by_mean_spec (df : DF) (n : ColName) (cs : List Cell)
    (h : df.getCol n = some cs) :
    ∃ cs2, (replace_null_values_by_mean df).getCol n = some cs2 ∧
      cs2.length = cs.length ∧
      (colIsNumeric cs = true → ∀ i, i < cs.length →
        cs2.getD i .null =
          if (cs.getD i .null).isNull then colMean cs else cs.getD i .null) ∧
      (colIsNumeric cs = false → cs2 = cs) ∧
      (cs.all Cell.isNull = true → cs2 = cs) := by
  have hout : (replace_null_values_by_mean df).getCol n =
      some (if colIsNumeric cs then fillConst cs (colMean cs) else cs) := by
    show DF.getColAux _ n = _
    have hm := DF.getColAux_map df.cols
      (fun s => if colIsNumeric s then fillConst s (colMean s) else s) n
    have h2 : DF.getColAux df.cols n = some cs := h
    simp only [replace_null_values_by_mean]
    rw [hm, h2]
    rfl
  refine ⟨_, hout, ?_, ?_, ?_, ?_⟩
  · by_cases hn : colIsNumeric cs = true <;> simp [hn, fillConst]
  · intro hn i hi
    simp only [hn, if_true]
    exact fillConst_getD cs (colMean cs) i hi
  · intro hn
    simp [hn]
  · intro hall
    simp [colIsNumeric_of_all_null cs hall, colMean_all_null cs hall, fillConst_null]

/-- Witness for C2 at a concrete dataframe: a numeric column `[2, null]`. -/
theorem replace_null_values_by_mean_spec_witness :
    (DF.mk [( ['v'], [Cell.num 2, Cell.null])]).getCol ['v'] = some [Cell.num 2, Cell.null] ∧
    (∃ cs2, (replace_null_values_by_mean (DF.mk [( ['v'], [Cell.num 2, Cell.null])])).getCol ['v']
        = some cs2 ∧
      cs2.length = [Cell.num 2, Cell.null].length ∧
      (colIsNumeric [Cell.num 2, Cell.null] = true → ∀ i, i < [Cell.num 2, Cell.null].length →
        cs2.getD i .null =
          if ([Cell.num 2, Cell.null].getD i .null).isNull then colMean [Cell.num 2, Cell.null]
          else [Cell.num 2, Cell.null].getD i .null) ∧
      (colIsNumeric [Cell.num 2, Cell.null] = false → cs2 = [Cell.num 2, Cell.null]) ∧
      ([Cell.num 2, Cell.null].all Cell.isNull = true → cs2 = [Cell.num 2, Cell.null])) :=
  ⟨rfl, replace_null_values_by_mean_spec _ _ _ rfl⟩

/-- The unit-column suffix `_unite_de_mesure`. -/
def unitSuffix : ColName := "_unite_de_mesure".toList

/-- The plain measured-value suffix `_valeur`. -/
def suffixValeur : ColName := "_valeur".toList

/-- The raw-value suffix `_valeur_brute`. -/
def suffixValeurBrute : ColName := "_valeur_brute".toList

/-- The value-kind metadata suffix `_type_de_valeur`. -/
def suffixTypeDeValeur : ColName := "_type_de_valeur".toList

/-- The canonical-unit suffix `_g_par_L` appended by unit conversion. -/
def gParLSuffix : ColName := "_g_par_L".toList

/-- The temporary conversion-factor column suffix. -/
def factorSuffix : ColName := "_conversion_factor".toList

/-- The converted value suffix `_valeur_g_par_L`. -/
def suffixValeurGparL : ColName := "_valeur_g_par_L".toList

/-- The converted raw-value suffix `_valeur_brute_g_par_L`. -/
def suffixValeurBruteGparL : ColName := "_valeur_brute_g_par_L".toList

/-- The lag-difference column suffix `_diff_6hrs`. -/
def diffSuffix : ColName := "_diff_6hrs".toList

/-- The percent-change column suffix `_percent_change_6hrs`. -/
def pctSuffix : ColName := "_percent_change_6hrs".toList

/-- The aggregate total column `total_valeur_particule_g_par_L`. -/
def totalName : ColName := "total_valeur_particule_g_par_L".toList

/-- The site-code key column. -/
def codeSiteName : ColName := "code_site".toList

/-- The interval-start key column. -/
def dateDebutName : ColName := "date_de_debut".toList

/-- The interval-end column dropped by normalization. -/
def dateFinName : ColName := "date_de_fin".toList

/-- The pollutant-code column dropped by normalization. -/
def polluantName : ColName := "polluant".toList

/-- Two names are distinct whenever they end in incomparable suffixes. -/
theorem ne_of_incomparable_suffix {s1 s2 n1 n2 : ColName} (h1 : s1 <:+ n1) (h2 : s2 <:+ n2)
    (h3 : ¬ s1 <:+ s2) (h4 : ¬ s2 <:+ s1) : n1 ≠ n2 := by
  intro he
  subst he
  rcases List.suffix_or_suffix_of_suffix h1 h2 with h | h
  · exact h3 h
  · exact h4 h

/-- The contributing columns of `aggregate_valeurs`: converted values
(excluding value-kind metadata) followed by converted raw values. -/
def aggCols (df : DF) : List ColName :=
  df.names.filter (fun n => suffixValeurGparL.isSuffixOf n && !(suffixTypeDeValeur.isSuffixOf n))
  ++ df.names.filter (fun n => suffixValeurBruteGparL.isSuffixOf n)

/-- The row-wise accumulation of `aggregate_valeurs`: start from `0` and add
each cell that `pd.notnull` accepts. -/
def rowSumAgg (df : DF) (cols : List ColName) (i : Nat) : Cell :=
  cols.foldl (fun acc n => if (df.cellAt n i).isNull then acc else Cell.add acc (df.cellAt n i))
    (.num 0)

/-- `aggregate_valeurs` from `process_to_curated.py`: append the row-wise
total column `total_valeur_particule_g_par_L`. -/
def aggregate_valeurs (df : DF) : DF :=
  df.setCol totalName ((List.range df.nRows).map (fun i => rowSumAgg df (aggCols df) i))

/-- The cells of row `i` restricted to the given columns. -/
def rowCellsAt (df : DF) (cols : List ColName) (i : Nat) : List Cell :=
  cols.map (fun n => df.cellAt n i)

theorem foldl_skip_null (cs : List Cell) (a : Cell) :
    cs.foldl (fun acc c => if c.isNull then acc else Cell.add acc c) a
      = (notNullCells cs).foldl Cell.add a := by
  induction cs generalizing a with
  | nil => rfl
  | cons c rest ih =>
    by_cases hc : c.isNull = true <;> simp [notNullCells, List.filter, hc, ih]

theorem rowSumAgg_eq_colSum (df : DF) (cols : List ColName) (i : Nat) :
    rowSumAgg df cols i = colSum (rowCellsAt df cols i) := by
  rw [rowSumAgg, colSum, rowCellsAt, ← foldl_skip_null, List.foldl_map]

theorem getD_map_range (n : Nat) (f : Nat → Cell) (i : Nat) (hi : i < n) :
    ((List.range n).map f).getD i .null = f i := by
  rw [List.getD_eq_getElem _ _ (by simpa using hi)]
  simp

/-- C4: `aggregate_valeurs` adds the total column whose value in each row is
the sum of the non-null cells of that row over the converted value and
converted raw-value columns, nulls acting as the additive identity; a row
whose contributing cells are all null gets total `0`, not null. -/
theorem aggregate_valeurs_spec (df : DF) :
    ∃ ts, (aggregate_valeurs df).getCol totalName = some ts ∧
      ts.length = df.nRows ∧
      (∀ i, i < df.nRows → ts.getD i .null = colSum (rowCellsAt df (aggCols df) i)) ∧
      (∀ i, i < df.nRows → (∀ c ∈ rowCellsAt df (aggCols df) i, c.isNull = true) →
        ts.getD i .null = .num 0) := by
  refine ⟨_, DF.getCol_setCol_self df totalName _, by simp, ?_, ?_⟩
  · intro i hi
    rw [getD_map_range _ _ _ hi, rowSumAgg_eq_colSum]
  · intro i hi hall
    rw [getD_map_range _ _ _ hi, rowSumAgg_eq_colSum]
    have : notNullCells (rowCellsAt df (aggCols df) i) = [] := by
      simp only [notNullCells, List.filter_eq_nil_iff]
      intro c hc
      simp [hall c hc]
    rw [colSum, this]
    rfl

/-- Witness for C4 at a concrete dataframe whose contributing cells are all
null: the total is `0`. -/
theorem aggregate_valeurs_spec_witness :
    ∃ ts, (aggregate_valeurs
        (DF.mk [( "a_valeur_g_par_L".toList, [Cell.null])])).getCol totalName = some ts ∧
      ts.length = (DF.mk [( "a_valeur_g_par_L".toList, [Cell.null])]).nRows ∧
      (∀ i, i < (DF.mk [( "a_valeur_g_par_L".toList, [Cell.null])]).nRows →
        ts.getD i .null = colSum (rowCellsAt (DF.mk [( "a_valeur_g_par_L".toList, [Cell.null])])
          (aggCols (DF.mk [( "a_valeur_g_par_L".toList, [Cell.null])])) i)) ∧
      (∀ i, i < (DF.mk [( "a_valeur_g_par_L".toList, [Cell.null])]).nRows →
        (∀ c ∈ rowCellsAt (DF.mk [( "a_valeur_g_par_L".toList, [Cell.null])])
          (aggCols (DF.mk [( "a_valeur_g_par_L".toList, [Cell.null])])) i, c.isNull = true) →
        ts.getD i .null = .num 0) :=
  aggregate_valeurs_spec _

/-- Pandas `pd.to_numeric(s, errors='coerce')` on a cell: numeric cells and
infinities pass through, non-numeric text coerces to `NaN` (numeric-looking
strings are already represented as `num`). -/
def toNumericCell : Cell → Cell
  | .num q => .num q
  | .txt _ => .null
  | .null => .null
  | .pinf => .pinf
  | .ninf => .ninf

/-- Pandas `Series.shift(k)`: `k` leading nulls, the tail truncated so the
length is preserved; the shift is global over the table, with no grouping. -/
def shiftCol (k : Nat) (cs : List Cell) : List Cell :=
  (List.replicate k Cell.null ++ cs).take cs.length

/-- Pandas `s.fillna(base)` with an aligned series `base`. -/
def fillnaSeries (cs base : List Cell) : List Cell :=
  List.zipWith (fun x y => if x.isNull then y else x) cs base

/-- The column selection shared by both lag passes: names ending `_valeur`
but not `_type_de_valeur`, plus the aggregate total column. -/
def lagSelect (df : DF) : List ColName :=
  df.names.filter
    (fun n => (suffixValeur.isSuffixOf n && !(suffixTypeDeValeur.isSuffixOf n)) || n == totalName)

/-- The selection predicate of `lagSelect` as a proposition. -/
def LagSelP (n : ColName) : Prop :=
  (suffixValeur <:+ n ∧ ¬ suffixTypeDeValeur <:+ n) ∨ n = totalName

/-- The lag-difference series: current minus the 6-row shift, nulls of the
shift first replaced by the current value. -/
def diffFormula (c : List Cell) : List Cell :=
  List.zipWith Cell.sub c (fillnaSeries (shiftCol 6 c) c)

/-- The percent-change series: `(current - shifted) / shifted * 100` against
the raw 6-row shift, with no substitution for missing baselines. -/
def pctFormula (c : List Cell) : List Cell :=
  List.zipWith (fun x y => Cell.mul (Cell.div (Cell.sub x y) y) (.num 100)) c (shiftCol 6 c)

/-- One iteration of either lag pass over one selected column `v`: coerce
`v` to numeric in place, then append the derived column `v ++ suf`. -/
def lagStep (suf : ColName) (f : List Cell → List Cell) (df : DF) (v : ColName) : DF :=
  let c := ((df.getCol v).getD []).map toNumericCell
  (df.setCol v c).setCol (v ++ suf) (f c)

/-- `shift_and_calculate_diff_6_hours_ago` from `process_to_curated.py`. -/
def shift_and_calculate_diff_6_hours_ago (df : DF) : DF :=
  (lagSelect df).foldl (lagStep diffSuffix diffFormula) df

/-- `calculate_particle_variation` from `process_to_curated.py`. -/
def calculate_particle_variation (df : DF) : DF :=
  (lagSelect df).foldl (lagStep pctSuffix pctFormula) df

theorem isSuffixOf_eq_false_iff (s n : ColName) : s.isSuffixOf n = false ↔ ¬ s <:+ n := by
  rw [Bool.eq_false_iff]
  exact not_congr List.isSuffixOf_iff_suffix

theorem mem_lagSelect_iff (df : DF) (n : ColName) :
    n ∈ lagSelect df ↔ n ∈ df.names ∧ LagSelP n := by
  simp [lagSelect, List.mem_filter, LagSelP, List.isSuffixOf_iff_suffix,
    isSuffixOf_eq_false_iff]

theorem not_suffix_of_lagSelP (suf : ColName) (h1 : ¬ suffixValeur <:+ suf)
    (h2 : ¬ suf <:+ suffixValeur) (h3 : ¬ suf <:+ totalName) (n : ColName)
    (hn : LagSelP n) : ¬ suf <:+ n := by
  intro hs
  rcases hn with ⟨hval, _⟩ | rfl
  · rcases List.suffix_or_suffix_of_suffix hval hs with h | h
    · exact h1 h
    · exact h2 h
  · exact h3 hs

theorem ne_append_self (v suf : ColName) (hsuf : suf ≠ []) : v ≠ v ++ suf := by
  intro he
  have : v.length = v.length + suf.length := by
    conv_lhs => rw [he]
    simp
  have : suf.length = 0 := by omega
  exact hsuf (List.length_eq_zero.mp this)

theorem lagStep_getCol_ne (suf : ColName) (f : List Cell → List Cell) (df : DF)
    (v m : ColName) (h1 : m ≠ v) (h2 : m ≠ v ++ suf) :
    (lagStep suf f df v).getCol m = df.getCol m := by
  show ((df.setCol v _).setCol (v ++ suf) _).getCol m = _
  rw [DF.getCol_setCol_ne _ _ _ _ h2, DF.getCol_setCol_ne _ _ _ _ h1]

theorem foldl_lagStep_getCol (suf : ColName) (f : List Cell → List Cell)
    (L : List ColName) (df : DF) (m : ColName)
    (h : ∀ v ∈ L, m ≠ v ∧ m ≠ v ++ suf) :
    (L.foldl (lagStep suf f) df).getCol m = df.getCol m := by
  induction L generalizing df with
  | nil => rfl
  | cons v L ih =>
    rw [List.foldl_cons, ih _ (fun w hw => h w (List.mem_cons_of_mem v hw)),
      lagStep_getCol_ne suf f df v m (h v (List.mem_cons_self v L)).1
        (h v (List.mem_cons_self v L)).2]

/-- Characterization of either lag pass on a selected column: the column is
coerced to numeric in place and the derived column `v ++ suf` holds `f` of
the coerced cells, `f` evaluated on the column's original contents. -/
theorem foldl_lagStep_spec (suf : ColName) (f : List Cell → List Cell) (df : DF)
    (hnodup : df.names.Nodup)
    (h1 : ¬ suffixValeur <:+ suf) (h2 : ¬ suf <:+ suffixValeur) (h3 : ¬ suf <:+ totalName)
    (v : ColName) (hv : v ∈ lagSelect df) (orig : List Cell)
    (ho : df.getCol v = some orig) :
    ((lagSelect df).foldl (lagStep suf f) df).getCol (v ++ suf)
        = some (f (orig.map toNumericCell)) ∧
    ((lagSelect df).foldl (lagStep suf f) df).getCol v = some (orig.map toNumericCell) := by
  have hsufne : suf ≠ [] := by
    intro he
    exact h3 (he ▸ List.nil_suffix)
  have hLnodup : (lagSelect df).Nodup := by
    have : (df.cols.map Prod.fst).Nodup := hnodup
    exact this.filter _
  have hallP : ∀ w ∈ lagSelect df, LagSelP w :=
    fun w hw => ((mem_lagSelect_iff df w).mp hw).2
  have hvP : LagSelP v := hallP v hv
  have hnosuf : ∀ w, LagSelP w → ¬ suf <:+ w := not_suffix_of_lagSelP suf h1 h2 h3
  obtain ⟨L1, L2, hL⟩ := List.append_of_mem hv
  have hnodup2 : (L1 ++ v :: L2).Nodup := hL ▸ hLnodup
  have hvL1 : v ∉ L1 := by
    intro hmem
    have := List.Nodup.of_append_left hnodup2
    rcases List.nodup_append.mp hnodup2 with ⟨-, -, hdisj⟩
    exact hdisj hmem (List.mem_cons_self v L2)
  have hvL2 : v ∉ L2 := by
    have := List.Nodup.of_append_right hnodup2
    exact (List.nodup_cons.mp this).1
  rw [hL, List.foldl_append, List.foldl_cons]
  have hstable1 : (L1.foldl (lagStep suf f) df).getCol v = some orig := by
    rw [foldl_lagStep_getCol suf f L1 df v ?_]
    · exact ho
    · intro w hw
      have hwP : LagSelP w := hallP w (hL ▸ List.mem_append_left _ hw)
      refine ⟨fun he => hvL1 (he ▸ hw), fun he => ?_⟩
      exact hnosuf v hvP (he ▸ List.suffix_append w suf)
  set d1 := L1.foldl (lagStep suf f) df with hd1
  have hstep : (lagStep suf f d1 v).getCol (v ++ suf) = some (f (orig.map toNumericCell)) := by
    show ((d1.setCol v _).setCol (v ++ suf) _).getCol (v ++ suf) = _
    rw [DF.getCol_setCol_self, hstable1]
    rfl
  have hstepv : (lagStep suf f d1 v).getCol v = some (orig.map toNumericCell) := by
    show ((d1.setCol v _).setCol (v ++ suf) _).getCol v = _
    rw [DF.getCol_setCol_ne _ _ _ _ (ne_append_self v suf hsufne), DF.getCol_setCol_self,
      hstable1]
    rfl
  constructor
  · rw [foldl_lagStep_getCol suf f L2 _ _ ?_]
    · exact hstep
    · intro w hw
      have hwP : LagSelP w := hallP w (hL ▸ by simp [hw])
      constructor
      · intro he
        exact hnosuf w hwP (he ▸ List.suffix_append v suf)
      · intro he
        have : v = w := List.append_cancel_right he
        exact hvL2 (this ▸ hw)
  · rw [foldl_lagStep_getCol suf f L2 _ _ ?_]
    · exact hstepv
    · intro w hw
      have hwP : LagSelP w := hallP w (hL ▸ by simp [hw])
      refine ⟨fun he => hvL2 (he ▸ hw), fun he => ?_⟩
      exact hnosuf v hvP (he ▸ List.suffix_append w suf)

theorem length_shiftCol (k : Nat) (cs : List Cell) : (shiftCol k cs).length = cs.length := by
  simp only [shiftCol, List.length_take, List.length_append, List.length_replicate]
  omega

theorem getD_zipWith (g : Cell → Cell → Cell) (xs ys : List Cell) (i : Nat)
    (hx : i < xs.length) (hy : i < ys.length) :
    (List.zipWith g xs ys).getD i .null = g (xs.getD i .null) (ys.getD i .null) := by
  rw [List.getD_eq_getElem _ _ (by rw [List.length_zipWith]; omega),
    List.getD_eq_getElem _ _ hx, List.getD_eq_getElem _ _ hy, List.getElem_zipWith]

theorem length_fillnaSeries (cs base : List Cell) :
    (fillnaSeries cs base).length = min cs.length base.length := by
  simp [fillnaSeries]

/-- C5 (amended): the lag-difference pass
`shift_and_calculate_diff_6_hours_ago` shifts each selected column by 6 rows
globally over the table (no grouping by site), coerces the column to numeric
in place, and adds a difference column equal to current minus shifted, the
nulls of the shifted series first replaced by the current value; at a cell
whose shifted value is null (in particular the first 6 rows) the difference
is therefore `current − current`: `0` whenever the current cell holds a
finite number, but null — not `0` — when the current cell is itself null. -/
theorem shift_and_calculate_diff_spec (df : DF) (hnodup : df.names.Nodup)
    (v : ColName) (hv : v ∈ lagSelect df) (orig : List Cell)
    (ho : df.getCol v = some orig) :
    (shift_and_calculate_diff_6_hours_ago df).getCol (v ++ diffSuffix)
        = some (diffFormula (orig.map toNumericCell)) ∧
    (shift_and_calculate_diff_6_hours_ago df).getCol v = some (orig.map toNumericCell) ∧
    (∀ i, i < orig.length →
      (shiftCol 6 (orig.map toNumericCell)).getD i .null = Cell.null →
      ((∃ q, (orig.map toNumericCell).getD i .null = Cell.num q) →
        (diffFormula (orig.map toNumericCell)).getD i .null = Cell.num 0) ∧
      ((orig.map toNumericCell).getD i .null = Cell.null →
        (diffFormula (orig.map toNumericCell)).getD i .null = Cell.null)) := by
  obtain ⟨hcol, hcoerce⟩ := foldl_lagStep_spec diffSuffix diffFormula df hnodup
    (by decide) (by decide) (by decide) v hv orig ho
  refine ⟨hcol, hcoerce, ?_⟩
  intro i hi hshift
  have hlen : (orig.map toNumericCell).length = orig.length := by simp
  have hi2 : i < (orig.map toNumericCell).length := by omega
  have hshiftlen : i < (shiftCol 6 (orig.map toNumericCell)).length := by
    rw [length_shiftCol]; omega
  have hfill : i < (fillnaSeries (shiftCol 6 (orig.map toNumericCell))
      (orig.map toNumericCell)).length := by
    rw [length_fillnaSeries, length_shiftCol]; omega
  have hd : (diffFormula (orig.map toNumericCell)).getD i .null =
      Cell.sub ((orig.map toNumericCell).getD i .null)
        ((fillnaSeries (shiftCol 6 (orig.map toNumericCell))
          (orig.map toNumericCell)).getD i .null) := by
    rw [diffFormula, getD_zipWith _ _ _ _ hi2 hfill]
  have hf : (fillnaSeries (shiftCol 6 (orig.map toNumericCell))
      (orig.map toNumericCell)).getD i .null = (orig.map toNumericCell).getD i .null := by
    rw [fillnaSeries, getD_zipWith _ _ _ _ hshiftlen hi2, hshift]
    rfl
  constructor
  · rintro ⟨q, hq⟩
    rw [hd, hf, hq]
    simp [Cell.sub]
  · intro hq
    rw [hd, hf, hq]
    rfl

/-- Witness for C5 at a concrete dataframe with one selected column. -/
theorem shift_and_calculate_diff_spec_witness :
    (DF.mk [( "a_valeur".toList, [Cell.num 5])]).names.Nodup ∧
    "a_valeur".toList ∈ lagSelect (DF.mk [( "a_valeur".toList, [Cell.num 5])]) ∧
    ((shift_and_calculate_diff_6_hours_ago
        (DF.mk [( "a_valeur".toList, [Cell.num 5])])).getCol
          ( "a_valeur".toList ++ diffSuffix)
        = some (diffFormula ([Cell.num 5].map toNumericCell)) ∧
      (shift_and_calculate_diff_6_hours_ago
        (DF.mk [( "a_valeur".toList, [Cell.num 5])])).getCol "a_valeur".toList
        = some ([Cell.num 5].map toNumericCell) ∧
      (∀ i, i < [Cell.num 5].length →
        (shiftCol 6 ([Cell.num 5].map toNumericCell)).getD i .null = Cell.null →
        ((∃ q, ([Cell.num 5].map toNumericCell).getD i .null = Cell.num q) →
          (diffFormula ([Cell.num 5].map toNumericCell)).getD i .null = Cell.num 0) ∧
        (([Cell.num 5].map toNumericCell).getD i .null = Cell.null →
          (diffFormula ([Cell.num 5].map toNumericCell)).getD i .null = Cell.null))) :=
  ⟨by decide, by decide,
    shift_and_calculate_diff_spec _ (by decide) _ (by decide) _ rfl⟩

/-- C5 counterexample: on the dataset with the single column `a_valeur =
[null]`, the shifted cell at row 0 is null, yet the lag difference at row 0
is null, not `0` as the claim states. -/
theorem shift_and_calculate_diff_counterexample :
    (shift_and_calculate_diff_6_hours_ago
        (DF.mk [( "a_valeur".toList, [Cell.null])])).getCol
      ( "a_valeur".toList ++ diffSuffix) = some [Cell.null] ∧
    (shiftCol 6 [Cell.null]).getD 0 .null = Cell.null ∧
    Cell.null ≠ Cell.num 0 := by
  refine ⟨by decide, by decide, by decide⟩

theorem pct_undefined (x y : Cell) (hy : y = Cell.null ∨ y = Cell.num 0) :
    (Cell.mul (Cell.div (Cell.sub x y) y) (Cell.num 100)).isFiniteNum = false := by
  rcases hy with rfl | rfl <;> cases x <;>
      simp only [Cell.sub, Cell.div, Cell.mul, Cell.isFiniteNum] <;>
    norm_num <;>
    split_ifs <;>
    simp [Cell.mul, Cell.isFiniteNum]

/-- C6: the percent-change pass `calculate_particle_variation` adds, for
each selected column, a column `(current − shifted) / shifted * 100` using
the same global 6-row shift with no guard or substitution; wherever the
shifted cell is null or zero the result is undefined — null or a signed
infinity, never a finite number — and, the pass being a total function, no
input makes it raise. -/
theorem calculate_particle_variation_spec (df : DF) (hnodup : df.names.Nodup)
    (v : ColName) (hv : v ∈ lagSelect df) (orig : List Cell)
    (ho : df.getCol v = some orig) :
    (calculate_particle_variation df).getCol (v ++ pctSuffix)
        = some (pctFormula (orig.map toNumericCell)) ∧
    (∀ i, i < orig.length →
      ((shiftCol 6 (orig.map toNumericCell)).getD i .null = Cell.null ∨
        (shiftCol 6 (orig.map toNumericCell)).getD i .null = Cell.num 0) →
      ((pctFormula (orig.map toNumericCell)).getD i .null).isFiniteNum = false) := by
  obtain ⟨hcol, -⟩ := foldl_lagStep_spec pctSuffix pctFormula df hnodup
    (by decide) (by decide) (by decide) v hv orig ho
  refine ⟨hcol, ?_⟩
  intro i hi hbad
  have hlen : (orig.map toNumericCell).length = orig.length := by simp
  have hi2 : i < (orig.map toNumericCell).length := by omega
  have hshiftlen : i < (shiftCol 6 (orig.map toNumericCell)).length := by
    rw [length_shiftCol]; omega
  rw [pctFormula, getD_zipWith _ _ _ _ hi2 hshiftlen]
  exact pct_undefined _ _ hbad

/-- Witness for C6 at a concrete dataframe with one selected column. -/
theorem calculate_particle_variation_spec_witness :
    (DF.mk [( "a_valeur".toList, [Cell.num 3])]).names.Nodup ∧
    "a_valeur".toList ∈ lagSelect (DF.mk [( "a_valeur".toList, [Cell.num 3])]) ∧
    ((calculate_particle_variation (DF.mk [( "a_valeur".toList, [Cell.num 3])])).getCol
        ( "a_valeur".toList ++ pctSuffix)
        = some (pctFormula ([Cell.num 3].map toNumericCell)) ∧
      (∀ i, i < [Cell.num 3].length →
        ((shiftCol 6 ([Cell.num 3].map toNumericCell)).getD i .null = Cell.null ∨
          (shiftCol 6 ([Cell.num 3].map toNumericCell)).getD i .null = Cell.num 0) →
        ((pctFormula ([Cell.num 3].map toNumericCell)).getD i .null).isFiniteNum = false)) :=
  ⟨by decide, by decide,
    calculate_particle_variation_spec _ (by decide) _ (by decide) _ rfl⟩

theorem lagStep_names (suf : ColName) (f : List Cell → List Cell) (df : DF) (v : ColName)
    (hv : v ∈ df.names) (hns : v ++ suf ∉ df.names) :
    (lagStep suf f df v).names = df.names ++ [v ++ suf] := by
  show ((df.setCol v _).setCol (v ++ suf) _).names = _
  rw [DF.names_setCol, DF.names_setCol]
  simp [hv, hns]

theorem foldl_lagStep_names (suf : ColName) (f : List Cell → List Cell)
    (L : List ColName) (df : DF)
    (h1 : ∀ v ∈ L, v ∈ df.names) (h2 : ∀ v ∈ L, v ++ suf ∉ df.names) (h3 : L.Nodup) :
    (L.foldl (lagStep suf f) df).names = df.names ++ L.map (fun n => n ++ suf) := by
  induction L generalizing df with
  | nil => simp
  | cons v L ih =>
    rw [List.foldl_cons]
    have hstep := lagStep_names suf f df v (h1 v (List.mem_cons_self v L))
      (h2 v (List.mem_cons_self v L))
    rw [ih (lagStep suf f df v) ?_ ?_ (List.nodup_cons.mp h3).2, hstep]
    · simp
    · intro w hw
      rw [hstep]
      exact List.mem_append_left _ (h1 w (List.mem_cons_of_mem v hw))
    · intro w hw
      rw [hstep]
      intro hmem
      rcases List.mem_append.mp hmem with h | h
      · exact h2 w (List.mem_cons_of_mem v hw) h
      · have hww : w ++ suf = v ++ suf := by simpa using h
        have : w = v := List.append_cancel_right hww
        exact (List.nodup_cons.mp h3).1 (this ▸ hw)

theorem getD_map_toNumeric (orig : List Cell) (i : Nat) (hi : i < orig.length) :
    (orig.map toNumericCell).getD i .null = toNumericCell (orig.getD i .null) := by
  rw [List.getD_eq_getElem _ _ (by simpa using hi), List.getD_eq_getElem _ _ hi,
    List.getElem_map]

/-- C9 (amended): the lag-difference and percent-change passes operate on
exactly the columns selected by `lagSelect` — names ending in `_valeur`
except those ending in `_type_de_valeur`, plus the aggregate total column;
raw-value (`_valeur_brute`) and converted (`_g_par_L`) columns, and
`_type_de_valeur` columns despite their `_valeur` ending, receive no derived
column; and both passes coerce each selected column to numeric in place, so
a non-numeric cell of a selected column is null in the final output. -/
theorem lag_passes_selection_spec (df : DF) (hnodup : df.names.Nodup)
    (hfresh1 : ∀ n ∈ df.names, ¬ diffSuffix <:+ n)
    (hfresh2 : ∀ n ∈ df.names, ¬ pctSuffix <:+ n) :
    (shift_and_calculate_diff_6_hours_ago df).names
        = df.names ++ (lagSelect df).map (fun n => n ++ diffSuffix) ∧
    (calculate_particle_variation df).names
        = df.names ++ (lagSelect df).map (fun n => n ++ pctSuffix) ∧
    (∀ v ∈ lagSelect df, ∀ orig, df.getCol v = some orig →
      (shift_and_calculate_diff_6_hours_ago df).getCol v = some (orig.map toNumericCell) ∧
      (calculate_particle_variation df).getCol v = some (orig.map toNumericCell)) ∧
    (∀ n ∈ df.names, n ∉ lagSelect df →
      (shift_and_calculate_diff_6_hours_ago df).getCol (n ++ diffSuffix) = none ∧
      (calculate_particle_variation df).getCol (n ++ pctSuffix) = none) ∧
    (∀ orig : List Cell, ∀ i, i < orig.length →
      (∃ s, orig.getD i .null = Cell.txt s) →
      (orig.map toNumericCell).getD i .null = Cell.null) := by
  have hLnodup : (lagSelect df).Nodup := by
    have hn : (df.cols.map Prod.fst).Nodup := hnodup
    exact hn.filter _
  have hmemN : ∀ v ∈ lagSelect df, v ∈ df.names :=
    fun v hv => ((mem_lagSelect_iff df v).mp hv).1
  have hfreshD : ∀ v ∈ lagSelect df, v ++ diffSuffix ∉ df.names := by
    intro v _ hmem
    exact hfresh1 _ hmem (List.suffix_append v diffSuffix)
  have hfreshP : ∀ v ∈ lagSelect df, v ++ pctSuffix ∉ df.names := by
    intro v _ hmem
    exact hfresh2 _ hmem (List.suffix_append v pctSuffix)
  have hnames1 : (shift_and_calculate_diff_6_hours_ago df).names
      = df.names ++ (lagSelect df).map (fun n => n ++ diffSuffix) :=
    foldl_lagStep_names diffSuffix diffFormula (lagSelect df) df hmemN hfreshD hLnodup
  have hnames2 : (calculate_particle_variation df).names
      = df.names ++ (lagSelect df).map (fun n => n ++ pctSuffix) :=
    foldl_lagStep_names pctSuffix pctFormula (lagSelect df) df hmemN hfreshP hLnodup
  refine ⟨hnames1, hnames2, ?_, ?_, ?_⟩
  · intro v hv orig ho
    exact ⟨(foldl_lagStep_spec diffSuffix diffFormula df hnodup
        (by decide) (by decide) (by decide) v hv orig ho).2,
      (foldl_lagStep_spec pctSuffix pctFormula df hnodup
        (by decide) (by decide) (by decide) v hv orig ho).2⟩
  · intro n hn hnsel
    constructor
    · apply DF.getCol_eq_none_of_not_mem
      rw [hnames1]
      intro hmem
      rcases List.mem_append.mp hmem with h | h
      · exact hfresh1 _ h (List.suffix_append n diffSuffix)
      · obtain ⟨w, hw, hww⟩ := List.mem_map.mp h
        exact hnsel ((List.append_cancel_right hww.symm) ▸ hw)
    · apply DF.getCol_eq_none_of_not_mem
      rw [hnames2]
      intro hmem
      rcases List.mem_append.mp hmem with h | h
      · exact hfresh2 _ h (List.suffix_append n pctSuffix)
      · obtain ⟨w, hw, hww⟩ := List.mem_map.mp h
        exact hnsel ((List.append_cancel_right hww.symm) ▸ hw)
  · rintro orig i hi ⟨s, hs⟩
    rw [getD_map_toNumeric orig i hi, hs]
    rfl

/-- C9 counterexample: the column `a_type_de_valeur` ends with the plain
suffix `_valeur`, yet neither pass gives it a derived column. -/
theorem lag_passes_selection_counterexample :
    suffixValeur <:+ "a_type_de_valeur".toList ∧
    (shift_and_calculate_diff_6_hours_ago
        (DF.mk [( "a_type_de_valeur".toList, [Cell.num 1])])).getCol
      ( "a_type_de_valeur".toList ++ diffSuffix) = none ∧
    (calculate_particle_variation
        (DF.mk [( "a_type_de_valeur".toList, [Cell.num 1])])).getCol
      ( "a_type_de_valeur".toList ++ pctSuffix) = none := by
  refine ⟨by decide, by decide, by decide⟩

/-- Witness for C9 at a concrete dataframe holding a text cell in a selected
column. -/
theorem lag_passes_selection_spec_witness :
    (DF.mk [( "a_valeur".toList, [Cell.txt "oops"])]).names.Nodup ∧
    (∀ n ∈ (DF.mk [( "a_valeur".toList, [Cell.txt "oops"])]).names, ¬ diffSuffix <:+ n) ∧
    (∀ n ∈ (DF.mk [( "a_valeur".toList, [Cell.txt "oops"])]).names, ¬ pctSuffix <:+ n) ∧
    ((shift_and_calculate_diff_6_hours_ago (DF.mk [( "a_valeur".toList, [Cell.txt "oops"])])).names
        = (DF.mk [( "a_valeur".toList, [Cell.txt "oops"])]).names
          ++ (lagSelect (DF.mk [( "a_valeur".toList, [Cell.txt "oops"])])).map
            (fun n => n ++ diffSuffix) ∧
      (calculate_particle_variation (DF.mk [( "a_valeur".toList, [Cell.txt "oops"])])).names
        = (DF.mk [( "a_valeur".toList, [Cell.txt "oops"])]).names
          ++ (lagSelect (DF.mk [( "a_valeur".toList, [Cell.txt "oops"])])).map
            (fun n => n ++ pctSuffix) ∧
      (∀ v ∈ lagSelect (DF.mk [( "a_valeur".toList, [Cell.txt "oops"])]), ∀ orig,
        (DF.mk [( "a_valeur".toList, [Cell.txt "oops"])]).getCol v = some orig →
        (shift_and_calculate_diff_6_hours_ago
            (DF.mk [( "a_valeur".toList, [Cell.txt "oops"])])).getCol v
          = some (orig.map toNumericCell) ∧
        (calculate_particle_variation
            (DF.mk [( "a_valeur".toList, [Cell.txt "oops"])])).getCol v
          = some (orig.map toNumericCell)) ∧
      (∀ n ∈ (DF.mk [( "a_valeur".toList, [Cell.txt "oops"])]).names,
        n ∉ lagSelect (DF.mk [( "a_valeur".toList, [Cell.txt "oops"])]) →
        (shift_and_calculate_diff_6_hours_ago
            (DF.mk [( "a_valeur".toList, [Cell.txt "oops"])])).getCol (n ++ diffSuffix)
          = none ∧
        (calculate_particle_variation
            (DF.mk [( "a_valeur".toList, [Cell.txt "oops"])])).getCol (n ++ pctSuffix)
          = none) ∧
      (∀ orig : List Cell, ∀ i, i < orig.length →
        (∃ s, orig.getD i .null = Cell.txt s) →
        (orig.map toNumericCell).getD i .null = Cell.null)) :=
  ⟨by decide, by decide, by decide,
    lag_passes_selection_spec _ (by decide) (by decide) (by decide)⟩

/-- The static unit-conversion map of `convert_units`; symbols outside the
map (and null cells) get a null factor, as `Series.map` of a dict does. -/
def unitFactor : Cell → Cell
  | .txt "mg-m3" => .num (1/1000)
  | .txt "Âµg-m3" => .num (1/1000000)
  | .txt "ng-m3" => .num (1/1000000000)
  | _ => .null

/-- Forward fill with an explicit carry of the last non-null cell. -/
def ffillAux : Option Cell → List Cell → List Cell
  | _, [] => []
  | last, c :: rest =>
    if c.isNull then (last.getD Cell.null) :: ffillAux last rest
    else c :: ffillAux (some c) rest

/-- Pandas `Series.ffill()`. -/
def ffill (cs : List Cell) : List Cell := ffillAux none cs

/-- Pandas `Series.bfill()`, a forward fill over the reversed series. -/
def bfill (cs : List Cell) : List Cell := (ffill cs.reverse).reverse

/-- The conditional fill sequence of `convert_units`: forward-fill when the
unit column has missing values, then backward-fill when some remain. -/
def resolveUnits (cs : List Cell) : List Cell :=
  let c1 := if cs.any Cell.isNull then ffill cs else cs
  if c1.any Cell.isNull then bfill c1 else c1

/-- Remove a suffix of the given length from the end of a name (the model of
`unit_column.replace("_unite_de_mesure", "")` for names ending in that
suffix). -/
def dropSuffixLen (n s : ColName) : ColName := n.take (n.length - s.length)

/-- The temporary conversion-factor column for a table prefix. -/
def factorName (p : ColName) : ColName := p ++ factorSuffix

/-- The converted column added for a value column `p ++ suf`. -/
def convName (p suf : ColName) : ColName := p ++ suf ++ gParLSuffix

/-- The unit columns of a dataframe, detected by suffix as in the source. -/
def unitColumns (df : DF) : List ColName :=
  df.names.filter (fun n => unitSuffix.isSuffixOf n)

/-- One conversion assignment of `convert_units`: when the value column
`p ++ suf` exists, append `p ++ suf ++ "_g_par_L"` holding value times
factor. -/
def convGparL (d : DF) (p suf : ColName) : DF :=
  if (d.getCol (p ++ suf)).isSome then
    d.setCol (convName p suf)
      (List.zipWith Cell.mul ((d.getCol (p ++ suf)).getD [])
        ((d.getCol (factorName p)).getD []))
  else d

/-- The body of the per-unit-column loop of `convert_units`: resolve the
unit column, create the factor column, convert the value and raw-value
columns when present, drop the factor column. -/
def processUnit (df : DF) (u : ColName) : DF :=
  let p := dropSuffixLen u unitSuffix
  let resolved := resolveUnits ((df.getCol u).getD [])
  (convGparL
      (convGparL ((df.setCol u resolved).setCol (factorName p) (resolved.map unitFactor))
        p suffixValeur)
      p suffixValeurBrute).dropCol (factorName p)

/-- `convert_units` from `process_to_curated.py`. -/
def convert_units (df : DF) : DF := (unitColumns df).foldl processUnit df

theorem length_ffillAux (last : Option Cell) (cs : List Cell) :
    (ffillAux last cs).length = cs.length := by
  induction cs generalizing last with
  | nil => rfl
  | cons c rest ih =>
    by_cases hc : c.isNull = true <;> simp [ffillAux, hc, ih]

theorem length_ffill (cs : List Cell) : (ffill cs).length = cs.length := by
  simp [ffill, length_ffillAux]

theorem length_bfill (cs : List Cell) : (bfill cs).length = cs.length := by
  simp [bfill, length_ffill]

theorem ffillAux_of_no_null (cs : List Cell) (h : cs.any Cell.isNull = false)
    (last : Option Cell) : ffillAux last cs = cs := by
  induction cs generalizing last with
  | nil => rfl
  | cons c rest ih =>
    simp only [List.any_cons, Bool.or_eq_false_iff] at h
    simp [ffillAux, h.1, ih h.2]

theorem ffill_of_no_null (cs : List Cell) (h : cs.any Cell.isNull = false) :
    ffill cs = cs := ffillAux_of_no_null cs h none

theorem bfill_of_no_null (cs : List Cell) (h : cs.any Cell.isNull = false) :
    bfill cs = cs := by
  have hr : cs.reverse.any Cell.isNull = false := by
    rw [List.any_eq_false] at h ⊢
    intro c hc
    exact h c (List.mem_reverse.mp hc)
  simp [bfill, ffill_of_no_null cs.reverse hr]

/-- The conditional fill of `convert_units` always equals a forward fill
followed by a backward fill. -/
theorem resolveUnits_eq_bfill_ffill (cs : List Cell) :
    resolveUnits cs = bfill (ffill cs) := by
  by_cases h1 : cs.any Cell.isNull = true
  · simp only [resolveUnits, h1, if_true]
    by_cases h2 : (ffill cs).any Cell.isNull = true
    · simp [h2]
    · simp only [Bool.not_eq_true] at h2
      simp [h2, bfill_of_no_null _ h2]
  · simp only [Bool.not_eq_true] at h1
    simp only [resolveUnits, h1, Bool.false_eq_true, if_false]
    rw [ffill_of_no_null cs h1, bfill_of_no_null cs h1]

theorem ffillAux_getD_of_not_null (cs : List Cell) (i : Nat) (hi : i < cs.length)
    (h : (cs.getD i .null).isNull = false) (last : Option Cell) :
    (ffillAux last cs).getD i .null = cs.getD i .null := by
  induction cs generalizing last i with
  | nil => simp at hi
  | cons c rest ih =>
    cases i with
    | zero =>
      by_cases hc : c.isNull = true <;> simp_all [ffillAux]
    | succ j =>
      have hj : j < rest.length := by simpa using Nat.lt_of_succ_lt_succ hi
      have hh : (rest.getD j .null).isNull = false := by simpa using h
      cases hcc : c.isNull
      · simp only [ffillAux, hcc, Bool.false_eq_true, if_false, List.getD_cons_succ]
        exact ih j hj hh _
      · simp only [ffillAux, hcc, if_true, List.getD_cons_succ]
        exact ih j hj hh _

theorem ffill_getD_of_not_null (cs : List Cell) (i : Nat) (hi : i < cs.length)
    (h : (cs.getD i .null).isNull = false) :
    (ffill cs).getD i .null = cs.getD i .null :=
  ffillAux_getD_of_not_null cs i hi h none

theorem getD_reverse (cs : List Cell) (i : Nat) (hi : i < cs.length) :
    cs.reverse.getD i .null = cs.getD (cs.length - 1 - i) .null := by
  rw [List.getD_eq_getElem _ _ (by simpa using hi),
    List.getD_eq_getElem _ _ (by omega), List.getElem_reverse]

theorem bfill_getD_of_not_null (cs : List Cell) (i : Nat) (hi : i < cs.length)
    (h : (cs.getD i .null).isNull = false) :
    (bfill cs).getD i .null = cs.getD i .null := by
  have hlen : (ffill cs.reverse).length = cs.length := by simp [length_ffill]
  have h1 : (bfill cs).getD i .null
      = (ffill cs.reverse).getD ((ffill cs.reverse).length - 1 - i) .null := by
    rw [bfill, getD_reverse _ _ (by simp [length_ffill]; omega)]
  have h2 : cs.reverse.getD (cs.length - 1 - i) .null = cs.getD i .null := by
    rw [getD_reverse _ _ (by omega)]
    congr 1
    omega
  rw [h1, hlen, ffill_getD_of_not_null _ _ (by simp; omega) (by rw [h2]; exact h), h2]

theorem dropSuffixLen_of_append (p s : ColName) : dropSuffixLen (p ++ s) s = p := by
  rw [dropSuffixLen, List.length_append, Nat.add_sub_cancel, List.take_left]

theorem ne_append_left {p a b : ColName} (h : a ≠ b) : p ++ a ≠ p ++ b :=
  fun he => h (List.append_cancel_left he)

theorem suffix_factorName (p : ColName) : factorSuffix <:+ factorName p :=
  List.suffix_append p factorSuffix

theorem suffix_convName_val (p : ColName) : suffixValeurGparL <:+ convName p suffixValeur := by
  have h : suffixValeur ++ gParLSuffix = suffixValeurGparL := by decide
  rw [convName, List.append_assoc, h]
  exact List.suffix_append p suffixValeurGparL

theorem suffix_convName_brute (p : ColName) :
    suffixValeurBruteGparL <:+ convName p suffixValeurBrute := by
  have h : suffixValeurBrute ++ gParLSuffix = suffixValeurBruteGparL := by decide
  rw [convName, List.append_assoc, h]
  exact List.suffix_append p suffixValeurBruteGparL

/-- The four column names one `processUnit` step writes or drops, for a name
`m` carrying a suffix incomparable with all four step-name suffixes. -/
theorem stable_of_suffix (s m u2 : ColName) (hm : s <:+ m) (hu2 : unitSuffix <:+ u2)
    (i1 : ¬ s <:+ unitSuffix) (i2 : ¬ unitSuffix <:+ s)
    (i3 : ¬ s <:+ factorSuffix) (i4 : ¬ factorSuffix <:+ s)
    (i5 : ¬ s <:+ suffixValeurGparL) (i6 : ¬ suffixValeurGparL <:+ s)
    (i7 : ¬ s <:+ suffixValeurBruteGparL) (i8 : ¬ suffixValeurBruteGparL <:+ s) :
    m ≠ u2 ∧ m ≠ factorName (dropSuffixLen u2 unitSuffix) ∧
    m ≠ convName (dropSuffixLen u2 unitSuffix) suffixValeur ∧
    m ≠ convName (dropSuffixLen u2 unitSuffix) suffixValeurBrute :=
  ⟨ne_of_incomparable_suffix hm hu2 i1 i2,
    ne_of_incomparable_suffix hm (suffix_factorName _) i3 i4,
    ne_of_incomparable_suffix hm (suffix_convName_val _) i5 i6,
    ne_of_incomparable_suffix hm (suffix_convName_brute _) i7 i8⟩

/-- A unit column is distinct from the names a step for a different unit
column writes or drops. -/
theorem unit_stable (u u2 : ColName) (hu : unitSuffix <:+ u) (hu2 : unitSuffix <:+ u2)
    (hne : u ≠ u2) :
    u ≠ u2 ∧ u ≠ factorName (dropSuffixLen u2 unitSuffix) ∧
    u ≠ convName (dropSuffixLen u2 unitSuffix) suffixValeur ∧
    u ≠ convName (dropSuffixLen u2 unitSuffix) suffixValeurBrute :=
  ⟨hne,
    ne_of_incomparable_suffix hu (suffix_factorName _) (by decide) (by decide),
    ne_of_incomparable_suffix hu (suffix_convName_val _) (by decide) (by decide),
    ne_of_incomparable_suffix hu (suffix_convName_brute _) (by decide) (by decide)⟩

/-- A converted value column is distinct from the names a step for a
different unit prefix writes or drops. -/
theorem convVal_stable (p u2 : ColName) (hu2 : unitSuffix <:+ u2)
    (hpne : p ≠ dropSuffixLen u2 unitSuffix) :
    convName p suffixValeur ≠ u2 ∧
    convName p suffixValeur ≠ factorName (dropSuffixLen u2 unitSuffix) ∧
    convName p suffixValeur ≠ convName (dropSuffixLen u2 unitSuffix) suffixValeur ∧
    convName p suffixValeur ≠ convName (dropSuffixLen u2 unitSuffix) suffixValeurBrute :=
  ⟨ne_of_incomparable_suffix (suffix_convName_val p) hu2 (by decide) (by decide),
    ne_of_incomparable_suffix (suffix_convName_val p) (suffix_factorName _)
      (by decide) (by decide),
    fun he => hpne (List.append_cancel_right (List.append_cancel_right
      (show p ++ suffixValeur ++ gParLSuffix
          = dropSuffixLen u2 unitSuffix ++ suffixValeur ++ gParLSuffix from he))),
    ne_of_incomparable_suffix (suffix_convName_val p) (suffix_convName_brute _)
      (by decide) (by decide)⟩

/-- A converted raw-value column is distinct from the names a step for a
different unit prefix writes or drops. -/
theorem convRaw_stable (p u2 : ColName) (hu2 : unitSuffix <:+ u2)
    (hpne : p ≠ dropSuffixLen u2 unitSuffix) :
    convName p suffixValeurBrute ≠ u2 ∧
    convName p suffixValeurBrute ≠ factorName (dropSuffixLen u2 unitSuffix) ∧
    convName p suffixValeurBrute ≠ convName (dropSuffixLen u2 unitSuffix) suffixValeur ∧
    convName p suffixValeurBrute ≠ convName (dropSuffixLen u2 unitSuffix) suffixValeurBrute :=
  ⟨ne_of_incomparable_suffix (suffix_convName_brute p) hu2 (by decide) (by decide),
    ne_of_incomparable_suffix (suffix_convName_brute p) (suffix_factorName _)
      (by decide) (by decide),
    ne_of_incomparable_suffix (suffix_convName_brute p) (suffix_convName_val _)
      (by decide) (by decide),
    fun he => hpne (List.append_cancel_right (List.append_cancel_right
      (show p ++ suffixValeurBrute ++ gParLSuffix
          = dropSuffixLen u2 unitSuffix ++ suffixValeurBrute ++ gParLSuffix from he)))⟩

theorem convGparL_getCol_ne (d : DF) (p suf m : ColName) (h : m ≠ convName p suf) :
    (convGparL d p suf).getCol m = d.getCol m := by
  rw [convGparL]
  split
  · exact DF.getCol_setCol_ne _ _ _ _ h
  · rfl

theorem processUnit_getCol_ne (df : DF) (u m : ColName)
    (h1 : m ≠ u) (h2 : m ≠ factorName (dropSuffixLen u unitSuffix))
    (h3 : m ≠ convName (dropSuffixLen u unitSuffix) suffixValeur)
    (h4 : m ≠ convName (dropSuffixLen u unitSuffix) suffixValeurBrute) :
    (processUnit df u).getCol m = df.getCol m := by
  show ((convGparL (convGparL _ _ _) _ _).dropCol _).getCol m = _
  rw [DF.getCol_dropCol_ne _ _ _ h2, convGparL_getCol_ne _ _ _ _ h4,
    convGparL_getCol_ne _ _ _ _ h3, DF.getCol_setCol_ne _ _ _ _ h2,
    DF.getCol_setCol_ne _ _ _ _ h1]

theorem foldl_processUnit_getCol (L : List ColName) (df : DF) (m : ColName)
    (h : ∀ u ∈ L, m ≠ u ∧ m ≠ factorName (dropSuffixLen u unitSuffix) ∧
      m ≠ convName (dropSuffixLen u unitSuffix) suffixValeur ∧
      m ≠ convName (dropSuffixLen u unitSuffix) suffixValeurBrute) :
    (L.foldl processUnit df).getCol m = df.getCol m := by
  induction L generalizing df with
  | nil => rfl
  | cons u L ih =>
    rw [List.foldl_cons, ih _ (fun w hw => h w (List.mem_cons_of_mem u hw))]
    obtain ⟨h1, h2, h3, h4⟩ := h u (List.mem_cons_self u L)
    exact processUnit_getCol_ne df u m h1 h2 h3 h4

theorem mem_unitColumns_iff (df : DF) (n : ColName) :
    n ∈ unitColumns df ↔ n ∈ df.names ∧ unitSuffix <:+ n := by
  simp [unitColumns, List.mem_filter, List.isSuffixOf_iff_suffix]

theorem Cell.mul_null (x : Cell) : Cell.mul x Cell.null = Cell.null := by
  cases x <;> rfl

/-- What one `processUnit` step does to the columns of its own unit prefix:
the unit column is resolved, the factor column is gone, and each value
column present gains its converted column, value times mapped factor. -/
theorem processUnit_spec (d : DF) (u p : ColName) (hp : p ++ unitSuffix = u)
    (oc : List Cell) (ho : d.getCol u = some oc) :
    (processUnit d u).getCol u = some (resolveUnits oc) ∧
    (processUnit d u).getCol (factorName p) = none ∧
    (∀ ov, d.getCol (p ++ suffixValeur) = some ov →
      (processUnit d u).getCol (convName p suffixValeur)
        = some (List.zipWith Cell.mul ov ((resolveUnits oc).map unitFactor))) ∧
    (∀ ovb, d.getCol (p ++ suffixValeurBrute) = some ovb →
      (processUnit d u).getCol (convName p suffixValeurBrute)
        = some (List.zipWith Cell.mul ovb ((resolveUnits oc).map unitFactor))) := by
  have hpd : dropSuffixLen u unitSuffix = p := by
    rw [← hp, dropSuffixLen_of_append]
  have hne_u_f : u ≠ factorName p := by
    rw [← hp]
    exact ne_append_left (by decide)
  have hne_v_f : p ++ suffixValeur ≠ factorName p := ne_append_left (by decide)
  have hne_v_u : p ++ suffixValeur ≠ u := by
    rw [← hp]
    exact ne_append_left (by decide)
  have hne_b_f : p ++ suffixValeurBrute ≠ factorName p := ne_append_left (by decide)
  have hne_b_u : p ++ suffixValeurBrute ≠ u := by
    rw [← hp]
    exact ne_append_left (by decide)
  have hne_u_cv : u ≠ convName p suffixValeur := by
    rw [← hp, convName, List.append_assoc]
    exact ne_append_left (by decide)
  have hne_u_cb : u ≠ convName p suffixValeurBrute := by
    rw [← hp, convName, List.append_assoc]
    exact ne_append_left (by decide)
  have hne_f_cv : factorName p ≠ convName p suffixValeur := by
    rw [convName, List.append_assoc, factorName]
    exact ne_append_left (by decide)
  have hne_f_cb : factorName p ≠ convName p suffixValeurBrute := by
    rw [convName, List.append_assoc, factorName]
    exact ne_append_left (by decide)
  have hne_b_cv : p ++ suffixValeurBrute ≠ convName p suffixValeur := by
    rw [convName, List.append_assoc]
    exact ne_append_left (by decide)
  have hne_cv_cb : convName p suffixValeur ≠ convName p suffixValeurBrute := by
    rw [convName, convName, List.append_assoc, List.append_assoc]
    exact ne_append_left (by decide)
  have hPU : processUnit d u =
      (convGparL (convGparL ((d.setCol u (resolveUnits oc)).setCol (factorName p)
          ((resolveUnits oc).map unitFactor)) p suffixValeur) p suffixValeurBrute).dropCol
        (factorName p) := by
    simp only [processUnit, hpd, ho, Option.getD_some]
  have hA_f : ((d.setCol u (resolveUnits oc)).setCol (factorName p)
      ((resolveUnits oc).map unitFactor)).getCol (factorName p)
      = some ((resolveUnits oc).map unitFactor) := DF.getCol_setCol_self _ _ _
  have hA_u : ((d.setCol u (resolveUnits oc)).setCol (factorName p)
      ((resolveUnits oc).map unitFactor)).getCol u = some (resolveUnits oc) := by
    rw [DF.getCol_setCol_ne _ _ _ _ hne_u_f, DF.getCol_setCol_self]
  have hA_v : ((d.setCol u (resolveUnits oc)).setCol (factorName p)
      ((resolveUnits oc).map unitFactor)).getCol (p ++ suffixValeur)
      = d.getCol (p ++ suffixValeur) := by
    rw [DF.getCol_setCol_ne _ _ _ _ hne_v_f, DF.getCol_setCol_ne _ _ _ _ hne_v_u]
  have hA_b : ((d.setCol u (resolveUnits oc)).setCol (factorName p)
      ((resolveUnits oc).map unitFactor)).getCol (p ++ suffixValeurBrute)
      = d.getCol (p ++ suffixValeurBrute) := by
    rw [DF.getCol_setCol_ne _ _ _ _ hne_b_f, DF.getCol_setCol_ne _ _ _ _ hne_b_u]
  have hB_u : (convGparL ((d.setCol u (resolveUnits oc)).setCol (factorName p)
      ((resolveUnits oc).map unitFactor)) p suffixValeur).getCol u = some (resolveUnits oc) := by
    rw [convGparL_getCol_ne _ _ _ _ hne_u_cv, hA_u]
  have hB_f : (convGparL ((d.setCol u (resolveUnits oc)).setCol (factorName p)
      ((resolveUnits oc).map unitFactor)) p suffixValeur).getCol (factorName p)
      = some ((resolveUnits oc).map unitFactor) := by
    rw [convGparL_getCol_ne _ _ _ _ hne_f_cv, hA_f]
  have hB_b : (convGparL ((d.setCol u (resolveUnits oc)).setCol (factorName p)
      ((resolveUnits oc).map unitFactor)) p suffixValeur).getCol (p ++ suffixValeurBrute)
      = d.getCol (p ++ suffixValeurBrute) := by
    rw [convGparL_getCol_ne _ _ _ _ hne_b_cv, hA_b]
  have hC_u : (convGparL (convGparL ((d.setCol u (resolveUnits oc)).setCol (factorName p)
      ((resolveUnits oc).map unitFactor)) p suffixValeur) p suffixValeurBrute).getCol u
      = some (resolveUnits oc) := by
    rw [convGparL_getCol_ne _ _ _ _ hne_u_cb, hB_u]
  refine ⟨?_, ?_, ?_, ?_⟩
  · rw [hPU, DF.getCol_dropCol_ne _ _ _ hne_u_f, hC_u]
  · rw [hPU, DF.getCol_dropCol_self]
  · intro ov hv
    have hB_cv : (convGparL ((d.setCol u (resolveUnits oc)).setCol (factorName p)
        ((resolveUnits oc).map unitFactor)) p suffixValeur).getCol (convName p suffixValeur)
        = some (List.zipWith Cell.mul ov ((resolveUnits oc).map unitFactor)) := by
      rw [convGparL, hA_v, hv, hA_f]
      simp
    rw [hPU, DF.getCol_dropCol_ne _ _ _ (fun he => hne_f_cv he.symm),
      convGparL_getCol_ne _ _ _ _ hne_cv_cb, hB_cv]
  · intro ovb hvb
    have hC_cb : (convGparL (convGparL ((d.setCol u (resolveUnits oc)).setCol (factorName p)
        ((resolveUnits oc).map unitFactor)) p suffixValeur) p suffixValeurBrute).getCol
          (convName p suffixValeurBrute)
        = some (List.zipWith Cell.mul ovb ((resolveUnits oc).map unitFactor)) := by
      rw [convGparL, hB_b, hvb, hB_f]
      simp
    rw [hPU, DF.getCol_dropCol_ne _ _ _ (fun he => hne_f_cb he.symm), hC_cb]

theorem dropSuffixLen_append_of_suffix (n s : ColName) (h : s <:+ n) :
    dropSuffixLen n s ++ s = n := by
  obtain ⟨t, ht⟩ := h
  subst ht
  rw [dropSuffixLen_of_append]

/-- C3: for every unit column (suffix `_unite_de_mesure`) of the dataframe,
`convert_units` resolves its null cells by a forward fill then a backward
fill, and for each paired value / raw-value column of the same prefix adds
the converted column equal to value times the factor the fixed map
`{mg-m3 ↦ 1e-3, µg-m3 ↦ 1e-6, ng-m3 ↦ 1e-9}` assigns to the resolved unit
cell; a unit symbol outside the map gets a null factor, which propagates to
a null converted value (and the pass, a total function, raises nothing). -/
theorem convert_units_spec (df : DF) (hnodup : df.names.Nodup)
    (u : ColName) (hu : u ∈ unitColumns df) (p : ColName) (hp : p ++ unitSuffix = u)
    (oc : List Cell) (ho : df.getCol u = some oc) :
    (convert_units df).getCol u = some (bfill (ffill oc)) ∧
    (∀ ov, df.getCol (p ++ suffixValeur) = some ov →
      (convert_units df).getCol (convName p suffixValeur)
        = some (List.zipWith Cell.mul ov ((bfill (ffill oc)).map unitFactor))) ∧
    (∀ ovb, df.getCol (p ++ suffixValeurBrute) = some ovb →
      (convert_units df).getCol (convName p suffixValeurBrute)
        = some (List.zipWith Cell.mul ovb ((bfill (ffill oc)).map unitFactor))) ∧
    (∀ x y : Cell, unitFactor y = Cell.null → Cell.mul x (unitFactor y) = Cell.null) := by
  have hsufu : unitSuffix <:+ u := ((mem_unitColumns_iff df u).mp hu).2
  have hLnodup : (unitColumns df).Nodup :=
    (show (df.cols.map Prod.fst).Nodup from hnodup).filter _
  have hallU : ∀ w ∈ unitColumns df, unitSuffix <:+ w :=
    fun w hw => ((mem_unitColumns_iff df w).mp hw).2
  obtain ⟨L1, L2, hL⟩ := List.append_of_mem hu
  have hnodup2 : (L1 ++ u :: L2).Nodup := hL ▸ hLnodup
  have huL1 : u ∉ L1 := by
    rcases List.nodup_append.mp hnodup2 with ⟨-, -, hdisj⟩
    exact fun hm => hdisj hm (List.mem_cons_self u L2)
  have huL2 : u ∉ L2 := (List.nodup_cons.mp (List.Nodup.of_append_right hnodup2)).1
  have hneL1 : ∀ w ∈ L1, u ≠ w := fun w hw he => huL1 (he ▸ hw)
  have hneL2 : ∀ w ∈ L2, u ≠ w := fun w hw he => huL2 (he ▸ hw)
  have hmemL1 : ∀ w ∈ L1, w ∈ unitColumns df := fun w hw => hL ▸ List.mem_append_left _ hw
  have hmemL2 : ∀ w ∈ L2, w ∈ unitColumns df := fun w hw => hL ▸ by simp [hw]
  have hpneL2 : ∀ w ∈ L2, p ≠ dropSuffixLen w unitSuffix := by
    intro w hw he
    apply hneL2 w hw
    rw [← hp, he, dropSuffixLen_append_of_suffix w unitSuffix (hallU w (hmemL2 w hw))]
  have hstab1u : (L1.foldl processUnit df).getCol u = some oc := by
    rw [foldl_processUnit_getCol L1 df u
      (fun w hw => unit_stable u w hsufu (hallU w (hmemL1 w hw)) (hneL1 w hw)), ho]
  have hstab1v : (L1.foldl processUnit df).getCol (p ++ suffixValeur)
      = df.getCol (p ++ suffixValeur) :=
    foldl_processUnit_getCol L1 df _ (fun w hw =>
      stable_of_suffix suffixValeur _ w (List.suffix_append p suffixValeur)
        (hallU w (hmemL1 w hw)) (by decide) (by decide) (by decide) (by decide)
        (by decide) (by decide) (by decide) (by decide))
  have hstab1b : (L1.foldl processUnit df).getCol (p ++ suffixValeurBrute)
      = df.getCol (p ++ suffixValeurBrute) :=
    foldl_processUnit_getCol L1 df _ (fun w hw =>
      stable_of_suffix suffixValeurBrute _ w (List.suffix_append p suffixValeurBrute)
        (hallU w (hmemL1 w hw)) (by decide) (by decide) (by decide) (by decide)
        (by decide) (by decide) (by decide) (by decide))
  obtain ⟨hs_u, hs_f, hs_v, hs_b⟩ :=
    processUnit_spec (L1.foldl processUnit df) u p hp oc hstab1u
  have hstab2u : (L2.foldl processUnit (processUnit (L1.foldl processUnit df) u)).getCol u
      = (processUnit (L1.foldl processUnit df) u).getCol u :=
    foldl_processUnit_getCol _ _ _
      (fun w hw => unit_stable u w hsufu (hallU w (hmemL2 w hw)) (hneL2 w hw))
  have hstab2cv : (L2.foldl processUnit
        (processUnit (L1.foldl processUnit df) u)).getCol (convName p suffixValeur)
      = (processUnit (L1.foldl processUnit df) u).getCol (convName p suffixValeur) :=
    foldl_processUnit_getCol _ _ _
      (fun w hw => convVal_stable p w (hallU w (hmemL2 w hw)) (hpneL2 w hw))
  have hstab2cb : (L2.foldl processUnit
        (processUnit (L1.foldl processUnit df) u)).getCol (convName p suffixValeurBrute)
      = (processUnit (L1.foldl processUnit df) u).getCol (convName p suffixValeurBrute) :=
    foldl_processUnit_getCol _ _ _
      (fun w hw => convRaw_stable p w (hallU w (hmemL2 w hw)) (hpneL2 w hw))
  have hfold : convert_units df
      = L2.foldl processUnit (processUnit (L1.foldl processUnit df) u) := by
    rw [convert_units, hL, List.foldl_append, List.foldl_cons]
  refine ⟨?_, ?_, ?_, ?_⟩
  · rw [hfold, hstab2u, hs_u, resolveUnits_eq_bfill_ffill]
  · intro ov hv
    have hres := hs_v ov (by rw [hstab1v]; exact hv)
    rw [resolveUnits_eq_bfill_ffill] at hres
    rw [hfold, hstab2cv, hres]
  · intro ovb hvb
    have hres := hs_b ovb (by rw [hstab1b]; exact hvb)
    rw [resolveUnits_eq_bfill_ffill] at hres
    rw [hfold, hstab2cb, hres]
  · intro x y h
    rw [h]
    exact Cell.mul_null x

/-- After the whole `convert_units` fold, a unit column holds its resolved
cells and its conversion-factor column is absent. -/
theorem convert_units_at_unit (df : DF) (hnodup : df.names.Nodup)
    (u : ColName) (hu : u ∈ unitColumns df) (p : ColName) (hp : p ++ unitSuffix = u)
    (oc : List Cell) (ho : df.getCol u = some oc) :
    (convert_units df).getCol u = some (resolveUnits oc) ∧
    (convert_units df).getCol (factorName p) = none := by
  have hsufu : unitSuffix <:+ u := ((mem_unitColumns_iff df u).mp hu).2
  have hLnodup : (unitColumns df).Nodup :=
    (show (df.cols.map Prod.fst).Nodup from hnodup).filter _
  have hallU : ∀ w ∈ unitColumns df, unitSuffix <:+ w :=
    fun w hw => ((mem_unitColumns_iff df w).mp hw).2
  obtain ⟨L1, L2, hL⟩ := List.append_of_mem hu
  have hnodup2 : (L1 ++ u :: L2).Nodup := hL ▸ hLnodup
  have huL1 : u ∉ L1 := by
    rcases List.nodup_append.mp hnodup2 with ⟨-, -, hdisj⟩
    exact fun hm => hdisj hm (List.mem_cons_self u L2)
  have huL2 : u ∉ L2 := (List.nodup_cons.mp (List.Nodup.of_append_right hnodup2)).1
  have hneL1 : ∀ w ∈ L1, u ≠ w := fun w hw he => huL1 (he ▸ hw)
  have hneL2 : ∀ w ∈ L2, u ≠ w := fun w hw he => huL2 (he ▸ hw)
  have hmemL1 : ∀ w ∈ L1, w ∈ unitColumns df := fun w hw => hL ▸ List.mem_append_left _ hw
  have hmemL2 : ∀ w ∈ L2, w ∈ unitColumns df := fun w hw => hL ▸ by simp [hw]
  have hpneL2 : ∀ w ∈ L2, p ≠ dropSuffixLen w unitSuffix := by
    intro w hw he
    apply hneL2 w hw
    rw [← hp, he, dropSuffixLen_append_of_suffix w unitSuffix (hallU w (hmemL2 w hw))]
  have hstab1u : (L1.foldl processUnit df).getCol u = some oc := by
    rw [foldl_processUnit_getCol L1 df u
      (fun w hw => unit_stable u w hsufu (hallU w (hmemL1 w hw)) (hneL1 w hw)), ho]
  obtain ⟨hs_u, hs_f, -, -⟩ := processUnit_spec (L1.foldl processUnit df) u p hp oc hstab1u
  have hfold : convert_units df
      = L2.foldl processUnit (processUnit (L1.foldl processUnit df) u) := by
    rw [convert_units, hL, List.foldl_append, List.foldl_cons]
  constructor
  · rw [hfold, foldl_processUnit_getCol _ _ _
      (fun w hw => unit_stable u w hsufu (hallU w (hmemL2 w hw)) (hneL2 w hw)), hs_u]
  · rw [hfold, foldl_processUnit_getCol _ _ _ ?_, hs_f]
    intro w hw
    refine ⟨ne_of_incomparable_suffix (suffix_factorName p) (hallU w (hmemL2 w hw))
        (by decide) (by decide),
      fun he => hpneL2 w hw (List.append_cancel_right
        (show p ++ factorSuffix = dropSuffixLen w unitSuffix ++ factorSuffix from he)),
      ne_of_incomparable_suffix (suffix_factorName p) (suffix_convName_val _)
        (by decide) (by decide),
      ne_of_incomparable_suffix (suffix_factorName p) (suffix_convName_brute _)
        (by decide) (by decide)⟩

/-- C10: `convert_units` leaves the cells of every value and raw-value
column unchanged (it only adds converted columns and fills null unit
cells — a non-null unit cell also keeps its value), and each temporary
conversion-factor column it creates is dropped before the pass returns, so
none is present in the output. -/
theorem convert_units_frame_spec (df : DF) (hnodup : df.names.Nodup) :
    (∀ m, (suffixValeur <:+ m ∨ suffixValeurBrute <:+ m) →
      (convert_units df).getCol m = df.getCol m) ∧
    (∀ u ∈ unitColumns df, ∀ p, p ++ unitSuffix = u →
      (convert_units df).getCol (factorName p) = none) ∧
    (∀ u ∈ unitColumns df, ∀ oc, df.getCol u = some oc →
      ∃ rc, (convert_units df).getCol u = some rc ∧ rc.length = oc.length ∧
        ∀ i, i < oc.length → (oc.getD i .null).isNull = false →
          rc.getD i .null = oc.getD i .null) := by
  have hallU : ∀ w ∈ unitColumns df, unitSuffix <:+ w :=
    fun w hw => ((mem_unitColumns_iff df w).mp hw).2
  refine ⟨?_, ?_, ?_⟩
  · intro m hsuf
    rw [convert_units, foldl_processUnit_getCol _ _ _ ?_]
    intro w hw
    rcases hsuf with h | h
    · exact stable_of_suffix suffixValeur _ w h (hallU w hw) (by decide) (by decide)
        (by decide) (by decide) (by decide) (by decide) (by decide) (by decide)
    · exact stable_of_suffix suffixValeurBrute _ w h (hallU w hw) (by decide) (by decide)
        (by decide) (by decide) (by decide) (by decide) (by decide) (by decide)
  · intro u hu p hp
    have hex : ∃ oc, df.getCol u = some oc := by
      have hmem : u ∈ df.names := ((mem_unitColumns_iff df u).mp hu).1
      have := (DF.getCol_isSome_iff_mem_names df u).mpr hmem
      cases he : df.getCol u with
      | none => rw [he] at this; simp at this
      | some oc => exact ⟨oc, rfl⟩
    obtain ⟨oc, ho⟩ := hex
    exact (convert_units_at_unit df hnodup u hu p hp oc ho).2
  · intro u hu oc ho
    obtain ⟨p, hp⟩ : ∃ p, p ++ unitSuffix = u := by
      obtain ⟨t, ht⟩ := hallU u hu
      exact ⟨t, ht⟩
    obtain ⟨hru, -⟩ := convert_units_at_unit df hnodup u hu p hp oc ho
    rw [resolveUnits_eq_bfill_ffill] at hru
    refine ⟨bfill (ffill oc), hru, by rw [length_bfill, length_ffill], ?_⟩
    intro i hi hnn
    have hf : (ffill oc).getD i .null = oc.getD i .null :=
      ffill_getD_of_not_null oc i hi hnn
    have hflen : i < (ffill oc).length := by rw [length_ffill]; exact hi
    have hfnn : ((ffill oc).getD i .null).isNull = false := by rw [hf]; exact hnn
    rw [bfill_getD_of_not_null (ffill oc) i hflen hfnn, hf]

/-- Witness for C3 at a concrete dataframe: unit column `[mg-m3, null]`
(the null backward/forward-filled to `mg-m3`), value column `[2, 4]`. -/
theorem convert_units_spec_witness :
    (DF.mk [( "o3_unite_de_mesure".toList, [Cell.txt "mg-m3", Cell.null]),
      ( "o3_valeur".toList, [Cell.num 2, Cell.num 4])]).names.Nodup ∧
    "o3_unite_de_mesure".toList ∈ unitColumns (DF.mk
      [( "o3_unite_de_mesure".toList, [Cell.txt "mg-m3", Cell.null]),
        ( "o3_valeur".toList, [Cell.num 2, Cell.num 4])]) ∧
    "o3".toList ++ unitSuffix = "o3_unite_de_mesure".toList ∧
    ((convert_units (DF.mk [( "o3_unite_de_mesure".toList, [Cell.txt "mg-m3", Cell.null]),
        ( "o3_valeur".toList, [Cell.num 2, Cell.num 4])])).getCol
        "o3_unite_de_mesure".toList
      = some (bfill (ffill [Cell.txt "mg-m3", Cell.null])) ∧
    (∀ ov, (DF.mk [( "o3_unite_de_mesure".toList, [Cell.txt "mg-m3", Cell.null]),
        ( "o3_valeur".toList, [Cell.num 2, Cell.num 4])]).getCol
          ( "o3".toList ++ suffixValeur) = some ov →
      (convert_units (DF.mk [( "o3_unite_de_mesure".toList, [Cell.txt "mg-m3", Cell.null]),
          ( "o3_valeur".toList, [Cell.num 2, Cell.num 4])])).getCol
        (convName "o3".toList suffixValeur)
        = some (List.zipWith Cell.mul ov
            ((bfill (ffill [Cell.txt "mg-m3", Cell.null])).map unitFactor))) ∧
    (∀ ovb, (DF.mk [( "o3_unite_de_mesure".toList, [Cell.txt "mg-m3", Cell.null]),
        ( "o3_valeur".toList, [Cell.num 2, Cell.num 4])]).getCol
          ( "o3".toList ++ suffixValeurBrute) = some ovb →
      (convert_units (DF.mk [( "o3_unite_de_mesure".toList, [Cell.txt "mg-m3", Cell.null]),
          ( "o3_valeur".toList, [Cell.num 2, Cell.num 4])])).getCol
        (convName "o3".toList suffixValeurBrute)
        = some (List.zipWith Cell.mul ovb
            ((bfill (ffill [Cell.txt "mg-m3", Cell.null])).map unitFactor))) ∧
    (∀ x y : Cell, unitFactor y = Cell.null → Cell.mul x (unitFactor y) = Cell.null)) :=
  ⟨by decide, by decide, by decide,
    convert_units_spec _ (by decide) _ (by decide) _ (by decide) _ rfl⟩

/-- Witness for C10 at a concrete dataframe with a unit and a value
column. -/
theorem convert_units_frame_spec_witness :
    (DF.mk [( "no2_unite_de_mesure".toList, [Cell.txt "zz-unknown"]),
      ( "no2_valeur".toList, [Cell.num 7])]).names.Nodup ∧
    ((∀ m, (suffixValeur <:+ m ∨ suffixValeurBrute <:+ m) →
      (convert_units (DF.mk [( "no2_unite_de_mesure".toList, [Cell.txt "zz-unknown"]),
          ( "no2_valeur".toList, [Cell.num 7])])).getCol m
        = (DF.mk [( "no2_unite_de_mesure".toList, [Cell.txt "zz-unknown"]),
            ( "no2_valeur".toList, [Cell.num 7])]).getCol m) ∧
    (∀ u ∈ unitColumns (DF.mk [( "no2_unite_de_mesure".toList, [Cell.txt "zz-unknown"]),
        ( "no2_valeur".toList, [Cell.num 7])]), ∀ p, p ++ unitSuffix = u →
      (convert_units (DF.mk [( "no2_unite_de_mesure".toList, [Cell.txt "zz-unknown"]),
          ( "no2_valeur".toList, [Cell.num 7])])).getCol (factorName p) = none) ∧
    (∀ u ∈ unitColumns (DF.mk [( "no2_unite_de_mesure".toList, [Cell.txt "zz-unknown"]),
        ( "no2_valeur".toList, [Cell.num 7])]), ∀ oc,
      (DF.mk [( "no2_unite_de_mesure".toList, [Cell.txt "zz-unknown"]),
        ( "no2_valeur".toList, [Cell.num 7])]).getCol u = some oc →
      ∃ rc, (convert_units (DF.mk [( "no2_unite_de_mesure".toList, [Cell.txt "zz-unknown"]),
          ( "no2_valeur".toList, [Cell.num 7])])).getCol u = some rc ∧
        rc.length = oc.length ∧
        ∀ i, i < oc.length → (oc.getD i .null).isNull = false →
          rc.getD i .null = oc.getD i .null)) :=
  ⟨by decide, convert_units_frame_spec _ (by decide)⟩

/-- A table keyed by the `(code_site, date_de_debut)` pair, as the
normalized per-pollutant tables are when `merge_dataframes` joins them: the
key cells are split off, `header` names the non-key columns, and each row
is its key pair with the payload cells aligned to `header`. -/
structure KTable where
  header : List ColName
  rows : List ((Cell × Cell) × List Cell)
deriving DecidableEq, Repr

/-- The key pairs of a keyed table, in row order. -/
def KTable.keys (t : KTable) : List (Cell × Cell) := t.rows.map Prod.fst

/-- The payload of the row with the given key, if any (first match). -/
def KTable.lookup (t : KTable) (k : Cell × Cell) : Option (List Cell) :=
  (t.rows.find? (fun r => decide (r.1 = k))).map Prod.snd

/-- An all-null payload of the given width. -/
def nullRow (w : Nat) : List Cell := List.replicate w Cell.null

/-- One full outer join of `pd.merge(..., on=keys, how='outer')` for keyed
tables: left rows extended with the matching right payload (or nulls), then
the right-only rows extended with nulls on the left. -/
def mergeTwo (a b : KTable) : KTable :=
  ⟨a.header ++ b.header,
    a.rows.map (fun r => (r.1, r.2 ++ ((b.lookup r.1).getD (nullRow b.header.length))))
    ++ (b.rows.filter (fun r => !(a.lookup r.1).isSome)).map
        (fun r => (r.1, nullRow a.header.length ++ r.2))⟩

/-- `merge_dataframes` from `process_to_curated.py`: the pairwise fold of
full outer joins on the key pair, empty on an empty input list. -/
def merge_dataframes : List KTable → KTable
  | [] => ⟨[], []⟩
  | t :: ts => ts.foldl mergeTwo t

/-- Every payload has the header's width. -/
def KTable.WF (t : KTable) : Prop := ∀ r ∈ t.rows, r.2.length = t.header.length

/-- At most one row per key pair. -/
def UniqueKeys (t : KTable) : Prop := t.keys.Nodup

/-- The columns of the `j`-th input inside a merged row: `w` cells starting
at offset `o`. -/
def rowSlice (row : List Cell) (o w : Nat) : List Cell := (row.drop o).take w

/-- The column offset of the `j`-th table of a list in the merged row. -/
def tblOffset (ts : List KTable) (j : Nat) : Nat :=
  ((ts.map (fun t => t.header.length)).take j).sum

theorem lookup_isSome_iff (t : KTable) (k : Cell × Cell) :
    (t.lookup k).isSome ↔ k ∈ t.keys := by
  simp [KTable.lookup, KTable.keys, List.find?_isSome, List.mem_map]

theorem lookup_eq_none_of_not_mem_keys (t : KTable) (k : Cell × Cell)
    (h : k ∉ t.keys) : t.lookup k = none := by
  have := (lookup_isSome_iff t k).not.mpr h
  cases he : t.lookup k with
  | none => rfl
  | some r => rw [he] at this; simp at this

theorem mem_keys_of_lookup_eq_some (t : KTable) (k : Cell × Cell) (row : List Cell)
    (h : t.lookup k = some row) : (k, row) ∈ t.rows := by
  rw [KTable.lookup] at h
  cases hf : t.rows.find? (fun r => decide (r.1 = k)) with
  | none => rw [hf] at h; simp at h
  | some r =>
    rw [hf] at h
    have hsnd : r.2 = row := by simpa using h
    have hmem := List.mem_of_find?_eq_some hf
    have hkey := List.find?_some hf
    simp only [decide_eq_true_eq] at hkey
    have : r = (k, row) := by
      cases r
      simp_all
    exact this ▸ hmem

theorem lookup_eq_some_of_mem_aux (rows : List ((Cell × Cell) × List Cell))
    (hnd : (rows.map Prod.fst).Nodup) (k : Cell × Cell) (row : List Cell)
    (h : (k, row) ∈ rows) :
    (rows.find? (fun r => decide (r.1 = k))).map Prod.snd = some row := by
  induction rows with
  | nil => simp at h
  | cons r rest ih =>
    by_cases hr : r.1 = k
    · have : r = (k, row) := by
        rcases List.mem_cons.mp h with he | hmem
        · exact he.symm
        · exfalso
          have hk : k ∈ rest.map Prod.fst := List.mem_map.mpr ⟨(k, row), hmem, rfl⟩
          have := (List.nodup_cons.mp hnd).1
          rw [hr] at this
          exact this hk
      rw [List.find?_cons_of_pos _ (by simp [hr])]
      rw [this]
      rfl
    · have hmem : (k, row) ∈ rest := by
        rcases List.mem_cons.mp h with he | hmem
        · exact absurd (by rw [← he]) hr
        · exact hmem
      rw [List.find?_cons_of_neg _ (by simp [hr])]
      exact ih (List.nodup_cons.mp hnd).2 hmem

theorem lookup_eq_some_of_mem (t : KTable) (hnd : UniqueKeys t) (k : Cell × Cell)
    (row : List Cell) (h : (k, row) ∈ t.rows) : t.lookup k = some row :=
  lookup_eq_some_of_mem_aux t.rows hnd k row h

theorem keys_mergeTwo (a b : KTable) :
    (mergeTwo a b).keys
      = a.keys ++ (b.rows.filter (fun r => !(a.lookup r.1).isSome)).map Prod.fst := by
  simp only [mergeTwo, KTable.keys, List.map_append, List.map_map]
  rfl

theorem mem_keys_mergeTwo (a b : KTable) (k : Cell × Cell) :
    k ∈ (mergeTwo a b).keys ↔ k ∈ a.keys ∨ k ∈ b.keys := by
  rw [keys_mergeTwo]
  simp only [List.mem_append, List.mem_map, List.mem_filter]
  constructor
  · rintro (h | ⟨r, ⟨hr, -⟩, hk⟩)
    · exact Or.inl h
    · exact Or.inr (hk ▸ List.mem_map.mpr ⟨r, hr, rfl⟩)
  · rintro (h | h)
    · exact Or.inl h
    · by_cases ha : k ∈ a.keys
      · exact Or.inl ha
      · obtain ⟨r, hr, hk⟩ := List.mem_map.mp h
        refine Or.inr ⟨r, ⟨hr, ?_⟩, hk⟩
        rw [hk, lookup_eq_none_of_not_mem_keys a k ha]
        rfl

theorem uniqueKeys_mergeTwo (a b : KTable) (ha : UniqueKeys a) (hb : UniqueKeys b) :
    UniqueKeys (mergeTwo a b) := by
  rw [UniqueKeys, keys_mergeTwo, List.nodup_append]
  refine ⟨ha, ?_, ?_⟩
  · exact hb.sublist (List.Sublist.map Prod.fst (List.filter_sublist b.rows))
  · intro k hk hk2
    obtain ⟨r, hr, hkr⟩ := List.mem_map.mp hk2
    have hnone : (a.lookup r.1).isSome = false := by
      have := (List.mem_filter.mp hr).2
      simpa using this
    rw [← hkr] at hk
    rw [(lookup_isSome_iff a r.1).symm] at hk
    rw [hk] at hnone
    cases hnone

theorem wf_mergeTwo (a b : KTable) (hwa : a.WF) (hwb : b.WF) : (mergeTwo a b).WF := by
  intro r hr
  rcases List.mem_append.mp hr with h | h
  · obtain ⟨s, hs, hrs⟩ := List.mem_map.mp h
    rw [← hrs]
    simp only [List.length_append]
    have h1 : s.2.length = a.header.length := hwa s hs
    have h2 : ((b.lookup s.1).getD (nullRow b.header.length)).length = b.header.length := by
      cases hb : b.lookup s.1 with
      | none => simp [nullRow]
      | some row =>
        have := hwb _ (mem_keys_of_lookup_eq_some b s.1 row hb)
        simpa using this
    have hh : (mergeTwo a b).header.length = a.header.length + b.header.length := by
      simp [mergeTwo]
    rw [hh, h1, h2]
  · obtain ⟨s, hs, hrs⟩ := List.mem_map.mp h
    rw [← hrs]
    simp only [List.length_append, nullRow, List.length_replicate]
    have hh : (mergeTwo a b).header.length = a.header.length + b.header.length := by
      simp [mergeTwo]
    rw [hh, hwb s (List.mem_of_mem_filter hs)]

theorem length_nullRow (w : Nat) : (nullRow w).length = w := by simp [nullRow]

theorem rowSlice_append_left (xs ys : List Cell) (o w : Nat) (h : o + w ≤ xs.length) :
    rowSlice (xs ++ ys) o w = rowSlice xs o w := by
  rw [rowSlice, rowSlice, List.drop_append_of_le_length (by omega),
    List.take_append_of_le_length (by rw [List.length_drop]; omega)]

theorem rowSlice_append_exact (xs ys : List Cell) (w : Nat) (hw : ys.length = w) :
    rowSlice (xs ++ ys) xs.length w = ys := by
  rw [rowSlice, List.drop_left, ← hw, List.take_length]

theorem rowSlice_replicate_append (n : Nat) (ys : List Cell) (o w : Nat) (h : o + w ≤ n) :
    rowSlice (nullRow n ++ ys) o w = nullRow w := by
  rw [rowSlice_append_left _ _ _ _ (by rw [length_nullRow]; omega), rowSlice, nullRow,
    List.drop_replicate, List.take_replicate]
  congr 1
  omega

theorem rowSlice_nullRow_append (n : Nat) (ys : List Cell) (w : Nat) (hw : ys.length = w) :
    rowSlice (nullRow n ++ ys) n w = ys := by
  rw [rowSlice, List.drop_append_of_le_length (by simp [nullRow]), nullRow,
    List.drop_replicate, Nat.sub_self]
  rw [List.replicate_zero, List.nil_append, ← hw, List.take_length]

theorem tblOffset_append_le (done : List KTable) (b : KTable) (j : Nat)
    (hj : j ≤ done.length) :
    tblOffset (done ++ [b]) j = tblOffset done j := by
  rw [tblOffset, tblOffset, List.map_append,
    List.take_append_of_le_length (by simpa using hj)]

theorem tblOffset_full (done : List KTable) :
    tblOffset done done.length = (done.map (fun t => t.header.length)).sum := by
  rw [tblOffset, List.take_of_length_le (by simp)]

theorem sum_take_le (l : List Nat) (n : Nat) : (l.take n).sum ≤ l.sum := by
  conv_rhs => rw [← List.take_append_drop n l]
  rw [List.sum_append]
  omega

theorem header_flatten_length (done : List KTable) :
    ((done.map KTable.header).flatten).length = (done.map (fun t => t.header.length)).sum := by
  rw [List.length_flatten, List.map_map]
  rfl

theorem tblOffset_add_le (done : List KTable) (j : Nat) (hj : j < done.length) :
    tblOffset done j + (done.get ⟨j, hj⟩).header.length
      ≤ (done.map (fun t => t.header.length)).sum := by
  have hlen : j < (done.map (fun t => t.header.length)).length := by simpa using hj
  have hs := List.sum_take_succ (done.map (fun t => t.header.length)) j hlen
  have hget : (done.map (fun t => t.header.length))[j] = (done.get ⟨j, hj⟩).header.length := by
    rw [List.getElem_map, List.get_eq_getElem]
  have h1 : tblOffset done j + (done.get ⟨j, hj⟩).header.length
      = ((done.map (fun t => t.header.length)).take (j + 1)).sum := by
    rw [hs, hget]
    rfl
  rw [h1]
  exact sum_take_le _ _

/-- One step of the merge fold preserves the invariant: the accumulator is
key-unique and rectangular, its header is the concatenation of the headers
seen so far, its keys are the union of the keys seen so far, and, inside
every row, the slice of columns belonging to the `j`-th table seen so far
is that table's payload for the row's key — or all nulls when the table
lacks the key. -/
theorem mergeTwo_inv_step (done : List KTable) (acc b : KTable)
    (ha1 : UniqueKeys acc) (ha2 : acc.WF)
    (ha3 : acc.header = (done.map KTable.header).flatten)
    (ha4 : ∀ k, k ∈ acc.keys ↔ ∃ t ∈ done, k ∈ t.keys)
    (ha5 : ∀ j, (hj : j < done.length) → ∀ k row, (k, row) ∈ acc.rows →
      rowSlice row (tblOffset done j) (done.get ⟨j, hj⟩).header.length
        = ((done.get ⟨j, hj⟩).lookup k).getD (nullRow (done.get ⟨j, hj⟩).header.length))
    (hb1 : UniqueKeys b) (hb2 : b.WF) :
    UniqueKeys (mergeTwo acc b) ∧ (mergeTwo acc b).WF ∧
    (mergeTwo acc b).header = ((done ++ [b]).map KTable.header).flatten ∧
    (∀ k, k ∈ (mergeTwo acc b).keys ↔ ∃ t ∈ done ++ [b], k ∈ t.keys) ∧
    (∀ j, (hj : j < (done ++ [b]).length) → ∀ k row, (k, row) ∈ (mergeTwo acc b).rows →
      rowSlice row (tblOffset (done ++ [b]) j) ((done ++ [b]).get ⟨j, hj⟩).header.length
        = (((done ++ [b]).get ⟨j, hj⟩).lookup k).getD
            (nullRow ((done ++ [b]).get ⟨j, hj⟩).header.length)) := by
  have haccw : acc.header.length = (done.map (fun t => t.header.length)).sum := by
    rw [ha3, header_flatten_length]
  refine ⟨uniqueKeys_mergeTwo acc b ha1 hb1, wf_mergeTwo acc b ha2 hb2, ?_, ?_, ?_⟩
  · show acc.header ++ b.header = _
    rw [ha3, List.map_append, List.flatten_append]
    simp
  · intro k
    rw [mem_keys_mergeTwo, ha4]
    constructor
    · rintro (⟨t, ht, hk⟩ | hk)
      · exact ⟨t, List.mem_append_left _ ht, hk⟩
      · exact ⟨b, List.mem_append_right _ (List.mem_singleton.mpr rfl), hk⟩
    · rintro ⟨t, ht, hk⟩
      rcases List.mem_append.mp ht with h | h
      · exact Or.inl ⟨t, h, hk⟩
      · rw [List.mem_singleton.mp h] at hk
        exact Or.inr hk
  · intro j hj k row hrow
    have hlen : (done ++ [b]).length = done.length + 1 := by simp
    have hjle : j ≤ done.length := by omega
    have hoff : tblOffset (done ++ [b]) j = tblOffset done j :=
      tblOffset_append_le done b j hjle
    rcases Nat.lt_succ_iff_lt_or_eq.mp (by omega : j < done.length + 1) with hjn | hjeq
    · -- a column block of a previously merged table
      have hget : (done ++ [b]).get ⟨j, hj⟩ = done.get ⟨j, hjn⟩ := by
        rw [List.get_eq_getElem, List.get_eq_getElem, List.getElem_append_left]
      rw [hget, hoff]
      have hole : tblOffset done j + (done.get ⟨j, hjn⟩).header.length ≤ acc.header.length := by
        rw [haccw]
        exact tblOffset_add_le done j hjn
      rcases List.mem_append.mp hrow with h | h
      · obtain ⟨r, hr, heq⟩ := List.mem_map.mp h
        rw [Prod.mk.injEq] at heq
        obtain ⟨hk, hrw⟩ := heq
        have hlr : r.2.length = acc.header.length := ha2 r hr
        rw [← hrw, rowSlice_append_left _ _ _ _ (by rw [hlr]; exact hole)]
        exact hk ▸ ha5 j hjn r.1 r.2 hr
      · obtain ⟨r, hrf, heq⟩ := List.mem_map.mp h
        rw [Prod.mk.injEq] at heq
        obtain ⟨hk, hrw⟩ := heq
        have hnone : (acc.lookup r.1).isSome = false := by
          simpa using (List.mem_filter.mp hrf).2
        have hknacc : k ∉ acc.keys := by
          rw [← hk, ← lookup_isSome_iff, hnone]
          simp
        have hknt : k ∉ (done.get ⟨j, hjn⟩).keys := by
          intro hmem
          exact hknacc ((ha4 k).mpr ⟨done.get ⟨j, hjn⟩, List.get_mem done j hjn, hmem⟩)
        rw [lookup_eq_none_of_not_mem_keys _ _ hknt, ← hrw,
          rowSlice_replicate_append _ _ _ _ hole]
        rfl
    · -- the column block of the newly merged table
      subst hjeq
      have hget : (done ++ [b]).get ⟨done.length, hj⟩ = b := by
        rw [List.get_eq_getElem]
        simp [List.getElem_concat_length]
      rw [hget, hoff, tblOffset_full, ← haccw]
      rcases List.mem_append.mp hrow with h | h
      · obtain ⟨r, hr, heq⟩ := List.mem_map.mp h
        rw [Prod.mk.injEq] at heq
        obtain ⟨hk, hrw⟩ := heq
        have hlX : ((b.lookup r.1).getD (nullRow b.header.length)).length
            = b.header.length := by
          cases hlk : b.lookup r.1 with
          | none => simp [nullRow]
          | some p => simpa using hb2 _ (mem_keys_of_lookup_eq_some b r.1 p hlk)
        have hlr : r.2.length = acc.header.length := ha2 r hr
        rw [← hrw, ← hlr, rowSlice_append_exact _ _ _ hlX, ← hk]
      · obtain ⟨r, hrf, heq⟩ := List.mem_map.mp h
        rw [Prod.mk.injEq] at heq
        obtain ⟨hk, hrw⟩ := heq
        have hrb : r ∈ b.rows := List.mem_of_mem_filter hrf
        have hlk : b.lookup k = some r.2 := by
          rw [← hk]
          exact lookup_eq_some_of_mem b hb1 r.1 r.2 (by
            have : (r.1, r.2) = r := rfl
            rw [this]
            exact hrb)
        rw [hlk, ← hrw, rowSlice_nullRow_append _ _ _ (hb2 r hrb)]
        rfl

theorem foldl_mergeTwo_inv (ts : List KTable) : ∀ (done : List KTable) (acc : KTable),
    (∀ t ∈ ts, UniqueKeys t) → (∀ t ∈ ts, t.WF) →
    UniqueKeys acc → acc.WF →
    acc.header = (done.map KTable.header).flatten →
    (∀ k, k ∈ acc.keys ↔ ∃ t ∈ done, k ∈ t.keys) →
    (∀ j, (hj : j < done.length) → ∀ k row, (k, row) ∈ acc.rows →
      rowSlice row (tblOffset done j) (done.get ⟨j, hj⟩).header.length
        = ((done.get ⟨j, hj⟩).lookup k).getD (nullRow (done.get ⟨j, hj⟩).header.length)) →
    UniqueKeys (ts.foldl mergeTwo acc) ∧ (ts.foldl mergeTwo acc).WF ∧
    (ts.foldl mergeTwo acc).header = ((done ++ ts).map KTable.header).flatten ∧
    (∀ k, k ∈ (ts.foldl mergeTwo acc).keys ↔ ∃ t ∈ done ++ ts, k ∈ t.keys) ∧
    (∀ j, (hj : j < (done ++ ts).length) → ∀ k row,
      (k, row) ∈ (ts.foldl mergeTwo acc).rows →
      rowSlice row (tblOffset (done ++ ts) j) ((done ++ ts).get ⟨j, hj⟩).header.length
        = (((done ++ ts).get ⟨j, hj⟩).lookup k).getD
            (nullRow ((done ++ ts).get ⟨j, hj⟩).header.length)) := by
  induction ts with
  | nil =>
    intro done acc _ _ h1 h2 h3 h4 h5
    rw [List.append_nil]
    exact ⟨h1, h2, h3, h4, h5⟩
  | cons b ts ih =>
    intro done acc hu hwf h1 h2 h3 h4 h5
    obtain ⟨m1, m2, m3, m4, m5⟩ := mergeTwo_inv_step done acc b h1 h2 h3 h4 h5
      (hu b (List.mem_cons_self b ts)) (hwf b (List.mem_cons_self b ts))
    have hres := ih (done ++ [b]) (mergeTwo acc b)
      (fun t ht => hu t (List.mem_cons_of_mem b ht))
      (fun t ht => hwf t (List.mem_cons_of_mem b ht)) m1 m2 m3 m4 m5
    rw [List.foldl_cons]
    have hassoc : done ++ [b] ++ ts = done ++ b :: ts := by simp
    rw [hassoc] at hres
    exact hres

/-- C1: when every input table has at most one row per `(code_site,
date_de_debut)` pair, the pairwise outer-join fold `merge_dataframes`
produces a table where each key pair present in any input appears exactly
once (unique keys, key-complete), and inside each output row the column
block of the `j`-th input holds that input's payload for the key when the
input has the key, and all nulls when it does not. -/
theorem merge_dataframes_spec (dfs : List KTable)
    (hu : ∀ t ∈ dfs, UniqueKeys t) (hwf : ∀ t ∈ dfs, t.WF) :
    UniqueKeys (merge_dataframes dfs) ∧
    (∀ k, k ∈ (merge_dataframes dfs).keys ↔ ∃ t ∈ dfs, k ∈ t.keys) ∧
    (∀ j, (hj : j < dfs.length) → ∀ k row, (k, row) ∈ (merge_dataframes dfs).rows →
      rowSlice row (tblOffset dfs j) ((dfs.get ⟨j, hj⟩).header.length)
        = ((dfs.get ⟨j, hj⟩).lookup k).getD
            (nullRow ((dfs.get ⟨j, hj⟩).header.length))) := by
  cases dfs with
  | nil =>
    refine ⟨List.nodup_nil, ?_, ?_⟩
    · intro k
      simp [merge_dataframes, KTable.keys]
    · intro j hj
      simp at hj
  | cons t ts =>
    have hinit5 : ∀ j, (hj : j < [t].length) → ∀ k row, (k, row) ∈ t.rows →
        rowSlice row (tblOffset [t] j) (([t].get ⟨j, hj⟩).header.length)
          = (([t].get ⟨j, hj⟩).lookup k).getD
              (nullRow (([t].get ⟨j, hj⟩).header.length)) := by
      intro j hj k row hrow
      have hj1 : j < 1 := by simpa using hj
      have hj0 : j = 0 := Nat.lt_one_iff.mp hj1
      subst hj0
      show rowSlice row 0 t.header.length = (t.lookup k).getD (nullRow t.header.length)
      rw [lookup_eq_some_of_mem t (hu t (List.mem_cons_self t ts)) k row hrow]
      have hlen : row.length = t.header.length :=
        hwf t (List.mem_cons_self t ts) (k, row) hrow
      rw [rowSlice, List.drop_zero, ← hlen, List.take_length]
      rfl
    obtain ⟨m1, -, -, m4, m5⟩ := foldl_mergeTwo_inv ts [t] t
      (fun s hs => hu s (List.mem_cons_of_mem t hs))
      (fun s hs => hwf s (List.mem_cons_of_mem t hs))
      (hu t (List.mem_cons_self t ts)) (hwf t (List.mem_cons_self t ts))
      (by simp) (by intro k; simp) hinit5
    exact ⟨m1, m4, m5⟩

instance (t : KTable) : Decidable (UniqueKeys t) := by
  unfold UniqueKeys
  infer_instance

instance (t : KTable) : Decidable (t.WF) := by
  unfold KTable.WF
  infer_instance

/-- Witness for C1 at two concrete key-unique tables: keys `(1,1)` and
`(1,2)` on the left, key `(1,1)` only on the right. -/
theorem merge_dataframes_spec_witness :
    (∀ t ∈ [KTable.mk [ "x".toList]
        [((Cell.num 1, Cell.num 1), [Cell.num 10]), ((Cell.num 1, Cell.num 2), [Cell.num 20])],
      KTable.mk [ "y".toList] [((Cell.num 1, Cell.num 1), [Cell.num 30])]], UniqueKeys t) ∧
    (∀ t ∈ [KTable.mk [ "x".toList]
        [((Cell.num 1, Cell.num 1), [Cell.num 10]), ((Cell.num 1, Cell.num 2), [Cell.num 20])],
      KTable.mk [ "y".toList] [((Cell.num 1, Cell.num 1), [Cell.num 30])]], t.WF) ∧
    (UniqueKeys (merge_dataframes [KTable.mk [ "x".toList]
        [((Cell.num 1, Cell.num 1), [Cell.num 10]), ((Cell.num 1, Cell.num 2), [Cell.num 20])],
      KTable.mk [ "y".toList] [((Cell.num 1, Cell.num 1), [Cell.num 30])]]) ∧
    (∀ k, k ∈ (merge_dataframes [KTable.mk [ "x".toList]
        [((Cell.num 1, Cell.num 1), [Cell.num 10]), ((Cell.num 1, Cell.num 2), [Cell.num 20])],
      KTable.mk [ "y".toList] [((Cell.num 1, Cell.num 1), [Cell.num 30])]]).keys ↔
      ∃ t ∈ [KTable.mk [ "x".toList]
          [((Cell.num 1, Cell.num 1), [Cell.num 10]),
            ((Cell.num 1, Cell.num 2), [Cell.num 20])],
        KTable.mk [ "y".toList] [((Cell.num 1, Cell.num 1), [Cell.num 30])]], k ∈ t.keys) ∧
    (∀ j, (hj : j < ([KTable.mk [ "x".toList]
        [((Cell.num 1, Cell.num 1), [Cell.num 10]), ((Cell.num 1, Cell.num 2), [Cell.num 20])],
      KTable.mk [ "y".toList] [((Cell.num 1, Cell.num 1), [Cell.num 30])]] : List KTable).length)
      → ∀ k row, (k, row) ∈ (merge_dataframes [KTable.mk [ "x".toList]
          [((Cell.num 1, Cell.num 1), [Cell.num 10]),
            ((Cell.num 1, Cell.num 2), [Cell.num 20])],
        KTable.mk [ "y".toList] [((Cell.num 1, Cell.num 1), [Cell.num 30])]]).rows →
      rowSlice row (tblOffset [KTable.mk [ "x".toList]
          [((Cell.num 1, Cell.num 1), [Cell.num 10]),
            ((Cell.num 1, Cell.num 2), [Cell.num 20])],
        KTable.mk [ "y".toList] [((Cell.num 1, Cell.num 1), [Cell.num 30])]] j)
          (([KTable.mk [ "x".toList]
            [((Cell.num 1, Cell.num 1), [Cell.num 10]),
              ((Cell.num 1, Cell.num 2), [Cell.num 20])],
          KTable.mk [ "y".toList] [((Cell.num 1, Cell.num 1), [Cell.num 30])]].get
            ⟨j, hj⟩).header.length)
        = (([KTable.mk [ "x".toList]
            [((Cell.num 1, Cell.num 1), [Cell.num 10]),
              ((Cell.num 1, Cell.num 2), [Cell.num 20])],
          KTable.mk [ "y".toList] [((Cell.num 1, Cell.num 1), [Cell.num 30])]].get
            ⟨j, hj⟩).lookup k).getD
          (nullRow (([KTable.mk [ "x".toList]
              [((Cell.num 1, Cell.num 1), [Cell.num 10]),
                ((Cell.num 1, Cell.num 2), [Cell.num 20])],
            KTable.mk [ "y".toList] [((Cell.num 1, Cell.num 1), [Cell.num 30])]].get
              ⟨j, hj⟩).header.length)))) :=
  ⟨by decide, by decide, merge_dataframes_spec _ (by decide) (by decide)⟩

/-- `drop_unwanted_col_and_add_table_prefix` from `process_to_curated.py`:
drop `date_de_fin` and `polluant` when present, then rename every column
except the two keys to `<table>_<original>`; no row is touched. -/
def drop_unwanted_col_and_add_table_prefix (df : DF) (tname : ColName) : DF :=
  ⟨((df.dropCol dateFinName).dropCol polluantName).cols.map
    (fun c => if c.1 = codeSiteName ∨ c.1 = dateDebutName then c
      else (tname ++ '_' :: c.1, c.2))⟩

/-- C7 (amended): the per-table normalizer removes the `date_de_fin` and
`polluant` columns when present and renames every remaining column except
`code_site` and `date_de_debut` to `<table>_<original>`, keeping every
column's cells — and hence every row, a null primary value included —
unchanged; it removes no rows. -/
theorem drop_unwanted_col_and_add_table_prefix_spec (df : DF) (tname : ColName) :
    ( drop_unwanted_col_and_add_table_prefix df tname).cols
      = (df.cols.filter (fun c =>
          !(c.1 = dateFinName : Bool) && !(c.1 = polluantName : Bool))).map
        (fun c => if c.1 = codeSiteName ∨ c.1 = dateDebutName then c
          else (tname ++ '_' :: c.1, c.2)) := by
  show (((df.cols.filter _).filter _).map _) = _
  rw [List.filter_filter]
  congr 1
  apply List.filter_congr
  intro c _
  rw [Bool.and_comm]

/-- C7 counterexample: a table whose `valeur` column holds a null at row 1
keeps both rows — the output column still has two cells, the null
included — where the claim says the null-value row is removed. -/
theorem drop_unwanted_col_and_add_table_prefix_counterexample :
    ( drop_unwanted_col_and_add_table_prefix
        (DF.mk [( "code_site".toList, [Cell.num 1, Cell.num 2]),
          ( "date_de_debut".toList, [Cell.num 1, Cell.num 1]),
          ( "valeur".toList, [Cell.num 5, Cell.null])]) "t1".toList).getCol
      "t1_valeur".toList = some [Cell.num 5, Cell.null] ∧
    ( drop_unwanted_col_and_add_table_prefix
        (DF.mk [( "code_site".toList, [Cell.num 1, Cell.num 2]),
          ( "date_de_debut".toList, [Cell.num 1, Cell.num 1]),
          ( "valeur".toList, [Cell.num 5, Cell.null])]) "t1".toList).nRows = 2 := by
  refine ⟨by decide, by decide⟩

/-- Witness for C7 at a concrete table holding the two droppable columns. -/
theorem drop_unwanted_col_and_add_table_prefix_spec_witness :
    ( drop_unwanted_col_and_add_table_prefix
        (DF.mk [( "code_site".toList, [Cell.num 1]), ( "date_de_fin".toList, [Cell.num 9]),
          ( "polluant".toList, [Cell.txt "O3"]), ( "valeur".toList, [Cell.num 5])])
        "t2".toList).cols
      = ((DF.mk [( "code_site".toList, [Cell.num 1]), ( "date_de_fin".toList, [Cell.num 9]),
          ( "polluant".toList, [Cell.txt "O3"]),
          ( "valeur".toList, [Cell.num 5])]).cols.filter (fun c =>
            !(c.1 = dateFinName : Bool) && !(c.1 = polluantName : Bool))).map
        (fun c => if c.1 = codeSiteName ∨ c.1 = dateDebutName then c
          else ( "t2".toList ++ '_' :: c.1, c.2)) :=
  drop_unwanted_col_and_add_table_prefix_spec _ _

/-- Pandas `pd.merge(..., on=['code_site', 'date_de_debut'])` demands both
key columns of both operands; this predicate is that requirement. -/
def DF.hasKeys (df : DF) : Bool :=
  (df.getCol codeSiteName).isSome && (df.getCol dateDebutName).isSome

/-- View a dataframe holding the two key columns as a keyed table: key pair
per row, the other columns as payload. -/
def DF.toKTable (df : DF) : KTable :=
  ⟨(df.cols.filter (fun c =>
      !(c.1 = codeSiteName : Bool) && !(c.1 = dateDebutName : Bool))).map Prod.fst,
    (List.range df.nRows).map (fun i =>
      ((df.cellAt codeSiteName i, df.cellAt dateDebutName i),
        (df.cols.filter (fun c =>
          !(c.1 = codeSiteName : Bool) && !(c.1 = dateDebutName : Bool))).map
            (fun c => c.2.getD i Cell.null)))⟩

/-- Back from a keyed table to a dataframe: the key columns first, then the
payload columns. -/
def KTable.toDF (t : KTable) : DF :=
  ⟨(codeSiteName, t.rows.map (fun r => r.1.1)) ::
    (dateDebutName, t.rows.map (fun r => r.1.2)) ::
    t.header.enum.map (fun x => (x.2, t.rows.map (fun r => r.2.getD x.1 Cell.null)))⟩

/-- One `pd.merge` call of the fold in `merge_dataframes`, at dataframe
level: a `KeyError` when either operand lacks a key column, the outer join
otherwise. -/
def mergeDF2 (a b : DF) : Except String DF :=
  if a.hasKeys && b.hasKeys then
    Except.ok (KTable.toDF (mergeTwo a.toKTable b.toKTable))
  else Except.error "KeyError: code_site / date_de_debut"

/-- The fold of `merge_dataframes` at dataframe level, where each join can
raise. -/
def merge_dataframes_df (dfs : List DF) : Except String DF :=
  match dfs with
  | [] => Except.ok ⟨[]⟩
  | d :: ds => ds.foldl (fun acc b => acc.bind (fun a => mergeDF2 a b)) (Except.ok d)

/-- The per-table loop of `main` in `process_to_curated.py`: skip a table
when it is empty (diagnostic printed and the loop continues), skip it again
when it is empty after normalization, keep the normalized table otherwise.
No other per-table condition is checked. -/
def processTables : List (ColName × DF) → List DF
  | [] => []
  | (tn, df) :: rest =>
    if df.isEmptyDF then processTables rest
    else
      let d := drop_unwanted_col_and_add_table_prefix df tn
      if d.isEmptyDF then processTables rest
      else d :: processTables rest

/-- The curation pipeline of `main` up to and including the merge. -/
def curate (tables : List (ColName × DF)) : Except String DF :=
  merge_dataframes_df (processTables tables)

/-- True exactly on a successful merge result. -/
def exceptOk : Except String DF → Bool
  | .ok _ => true
  | .error _ => false

theorem foldl_merge_error (ds : List DF) (e : String) :
    ds.foldl (fun acc b => acc.bind (fun a => mergeDF2 a b)) (Except.error e)
      = Except.error e := by
  induction ds with
  | nil => rfl
  | cons b ds ih =>
    rw [List.foldl_cons]
    exact ih

theorem foldl_merge_not_ok (ds : List DF) :
    ∀ acc : Except String DF, (∃ b ∈ ds, b.hasKeys = false) →
    exceptOk (ds.foldl (fun acc b => acc.bind (fun a => mergeDF2 a b)) acc) = false := by
  induction ds with
  | nil =>
    rintro acc ⟨b, hb, -⟩
    simp at hb
  | cons b ds ih =>
    rintro acc ⟨c, hc, hck⟩
    rw [List.foldl_cons]
    rcases List.mem_cons.mp hc with rfl | hcds
    · cases acc with
      | error e =>
        rw [show (Except.error e : Except String DF).bind (fun a => mergeDF2 a c)
            = Except.error e from rfl, foldl_merge_error]
        rfl
      | ok a =>
        rw [show (Except.ok a : Except String DF).bind (fun x => mergeDF2 x c)
            = mergeDF2 a c from rfl]
        rw [mergeDF2]
        have hcond : (a.hasKeys && c.hasKeys) = false := by rw [hck]; simp
        rw [hcond]
        rw [show (if (false : Bool) = true then
              Except.ok (KTable.toDF (mergeTwo a.toKTable c.toKTable))
            else (Except.error "KeyError: code_site / date_de_debut" : Except String DF))
          = Except.error "KeyError: code_site / date_de_debut" from rfl, foldl_merge_error]
        rfl
    · exact ih _ ⟨c, hcds, hck⟩

/-- C8 (amended): the per-table loop skips only empty tables (a table that
is empty, or empty after normalization, is left out with a diagnostic and
the run continues with the rest); a table whose key columns are absent is
not detected by the loop, and once at least two tables survive to the merge
while one of them lacks a key column, the merge raises a key error instead
of skipping it. -/
theorem curate_missing_keys_spec :
    (∀ tn (df : DF) rest, df.isEmptyDF = true →
      processTables ((tn, df) :: rest) = processTables rest) ∧
    (∀ tables, 2 ≤ (processTables tables).length →
      (∃ d ∈ processTables tables, d.hasKeys = false) →
      exceptOk (curate tables) = false) := by
  constructor
  · intro tn df rest h
    simp [processTables, h]
  · intro tables hlen hbad
    rw [curate]
    cases hpt : processTables tables with
    | nil => rw [hpt] at hlen; simp at hlen
    | cons d ds =>
      rw [hpt] at hbad hlen
      rw [merge_dataframes_df]
      obtain ⟨c, hc, hck⟩ := hbad
      rcases List.mem_cons.mp hc with rfl | hcds
      · cases ds with
        | nil => simp at hlen
        | cons b ds2 =>
          rw [List.foldl_cons,
            show (Except.ok c : Except String DF).bind (fun x => mergeDF2 x b)
              = mergeDF2 c b from rfl, mergeDF2]
          have hcond : (c.hasKeys && b.hasKeys) = false := by rw [hck]; simp
          rw [hcond]
          rw [show (if (false : Bool) = true then
                Except.ok (KTable.toDF (mergeTwo c.toKTable b.toKTable))
              else (Except.error "KeyError: code_site / date_de_debut" : Except String DF))
            = Except.error "KeyError: code_site / date_de_debut" from rfl, foldl_merge_error]
          rfl
      · exact foldl_merge_not_ok ds _ ⟨c, hcds, hck⟩

/-- C8 counterexample: a non-empty table lacking both key columns is not
skipped by the per-table loop (two tables reach the merge) and the merge
step fails with a key error rather than continuing. -/
theorem curate_missing_keys_counterexample :
    (processTables [( "t1".toList, DF.mk [( "code_site".toList, [Cell.num 1]),
        ( "date_de_debut".toList, [Cell.num 1]), ( "valeur".toList, [Cell.num 2])]),
      ( "t2".toList, DF.mk [( "valeur".toList, [Cell.num 3])])]).length = 2 ∧
    exceptOk (curate [( "t1".toList, DF.mk [( "code_site".toList, [Cell.num 1]),
        ( "date_de_debut".toList, [Cell.num 1]), ( "valeur".toList, [Cell.num 2])]),
      ( "t2".toList, DF.mk [( "valeur".toList, [Cell.num 3])])]) = false := by
  refine ⟨by decide, by decide⟩

/-- Witness for C8 at concrete inputs: an empty table is skipped, and a
two-table run with one keyless table fails the merge. -/
theorem curate_missing_keys_spec_witness :
    (DF.mk [( "a".toList, ([] : List Cell))]).isEmptyDF = true ∧
    processTables [( "t0".toList, DF.mk [( "a".toList, ([] : List Cell))])]
      = processTables [] ∧
    2 ≤ (processTables [( "t1".toList, DF.mk [( "code_site".toList, [Cell.num 1]),
        ( "date_de_debut".toList, [Cell.num 1]), ( "valeur".toList, [Cell.num 2])]),
      ( "t2".toList, DF.mk [( "valeur".toList, [Cell.num 3])])]).length ∧
    (∃ d ∈ processTables [( "t1".toList, DF.mk [( "code_site".toList, [Cell.num 1]),
        ( "date_de_debut".toList, [Cell.num 1]), ( "valeur".toList, [Cell.num 2])]),
      ( "t2".toList, DF.mk [( "valeur".toList, [Cell.num 3])])], d.hasKeys = false) ∧
    exceptOk (curate [( "t1".toList, DF.mk [( "code_site".toList, [Cell.num 1]),
        ( "date_de_debut".toList, [Cell.num 1]), ( "valeur".toList, [Cell.num 2])]),
      ( "t2".toList, DF.mk [( "valeur".toList, [Cell.num 3])])]) = false :=
  ⟨by decide, curate_missing_keys_spec.1 _ _ _ (by decide), by decide, by decide,
    curate_missing_keys_spec.2 _ (by decide) (by decide)⟩
